import Mathlib

/-!
Verification of the semantic highlight synchronization engine
(`src/handler/semanticTokens/buffer.ts`).

The engine is embedded shallowly: pure parts of the TypeScript file become
Lean functions; the stateful, asynchronous parts become explicit state
passing over an `EngineState` record together with a `PassEnv` oracle that
fixes the outcome of every suspension point (provider calls, editor
queries, diff results, cancellation observations).  Time is modelled as the
number of suspension points passed so far; a cancellation token is a
function from that time to `Bool`.
-/

namespace CocSem

/-- `yieldEveryMilliseconds`-driven yields are modelled by an oracle
`yieldAt : ℕ → Bool` telling whether the wall-clock check fires before a
given token group; real time is not modelled. -/
def debounceInterval : ℕ := 100

/-- `getConditionValue(500, 20)` outside of tests. -/
def requestDelay : ℕ := 500

/-- The highlight group name that all semantic groups start with
(`HLGROUP_PREFIX` in the source). -/
def hlGroupStart : String := "CocSem"

/-- Modelled from the spec: `upperFirst` (from `src/util/string`, not under
`src/`) capitalizes the first character of a string, producing the
`Modifier`/`Type` parts of composite group names. -/
def upperFirst (s : String) : String :=
  match s.data with
  | [] => s
  | c :: cs => String.mk (c.toUpper :: cs)

/-- Modelled from the spec: `byteIndex` (from `src/util/string`, not under
`src/`) converts a character offset into the byte index of that offset in
the line's UTF-8 encoding ("converted to the renderer's storage unit
(e.g., byte offset) using the document's current line text"). -/
def byteIndex (content : String) (index : ℕ) : ℕ :=
  (content.data.take index).foldl (fun acc c => acc + c.utf8Size) 0

structure SemanticTokensLegend where
  tokenTypes : List String
  tokenModifiers : List String
deriving Repr, DecidableEq

/-- `SemanticTokenRange` of the source; `range : TokenRange` is flattened
into the three fields `line`, `colStart`, `colEnd`. -/
structure SemanticTokenRange where
  line : ℕ
  colStart : ℕ
  colEnd : ℕ
  tokenType : String
  tokenModifiers : List String
  hlGroup : Option String
  combine : Bool
deriving Repr, DecidableEq

/-- The read-only data the decoder needs: the legend, the document's line
text (`doc.getline`), the statically known highlight groups
(`staticConfig.highlightGroups`) and the `combinedModifiers`
configuration. -/
structure DecodeCtx where
  legend : SemanticTokensLegend
  getline : ℕ → String
  highlightGroups : List String
  combinedModifiers : List String

/-- One `for`-loop of `addHighlightItems` (lines 234-241 resp. 243-250):
walk the token's modifiers in provider order and stop at the first one
whose group name (built by `mk`) is in the available highlight groups,
recording whether that modifier is in the configured `combinedModifiers`. -/
def resolveLoop (highlightGroups combinedModifiers : List String)
    (mk : String → String) : List String → Option (String × Bool)
  | [] => none
  | item :: rest =>
    let hlGroup := mk item
    if highlightGroups.contains hlGroup then
      some (hlGroup, combinedModifiers.contains item)
    else resolveLoop highlightGroups combinedModifiers mk rest

/-- The span built by one call of `addHighlightItems` (source lines
227-268): resolve the highlight group for one decoded token (composite
`CocSem+Modifier+Type` first, then `CocSem+Modifier`, then `CocSem+Type`)
and convert the character offsets to byte columns against the document's
current line text. -/
def mkHighlightItem (ctx : DecodeCtx) (lnum startCharacter endCharacter : ℕ)
    (tokenType : String) (tokenModifiers : List String) : SemanticTokenRange :=
  let step1 := resolveLoop ctx.highlightGroups ctx.combinedModifiers
    (fun item => hlGroupStart ++ upperFirst item ++ upperFirst tokenType) tokenModifiers
  let step2 := match step1 with
    | some r => some r
    | none => resolveLoop ctx.highlightGroups ctx.combinedModifiers
        (fun item => hlGroupStart ++ upperFirst item) tokenModifiers
  let resolved : Option String × Bool := match step2 with
    | some (g, c) => (some g, c)
    | none =>
      let hlGroup := hlGroupStart ++ upperFirst tokenType
      if ctx.highlightGroups.contains hlGroup then (some hlGroup, false)
      else (none, false)
  let line := ctx.getline lnum
  let colStart := byteIndex line startCharacter
  let colEnd := byteIndex line endCharacter
  { line := lnum, colStart := colStart, colEnd := colEnd,
    tokenType := tokenType, tokenModifiers := tokenModifiers,
    hlGroup := resolved.1, combine := resolved.2 }

/-- `addHighlightItems` pushes the built span onto `highlights`. -/
def addHighlightItems (ctx : DecodeCtx) (highlights : List SemanticTokenRange)
    (lnum startCharacter endCharacter : ℕ) (tokenType : String)
    (tokenModifiers : List String) : List SemanticTokenRange :=
  highlights ++ [mkHighlightItem ctx lnum startCharacter endCharacter tokenType tokenModifiers]

/-- The loop body of `getTokenRanges` (source lines 202-219).  Arguments
after the token list: the group index (for the yield oracle), the current
time (number of suspension points passed), and the running
`currentLine` / `currentCharacter` cursor.  Returns the spans decoded from
this point on together with the final time; a cancellation observed right
after a yield breaks the loop, as in the source.  The source reads groups
of five with `tokens[i] .. tokens[i+4]`; a trailing fragment of fewer than
five integers (which the source would decode from `undefined` entries) is
not modelled. -/
def getTokenRangesGo (ctx : DecodeCtx) (yieldAt cancelled : ℕ → Bool) :
    List ℕ → ℕ → ℕ → ℕ → ℕ → List SemanticTokenRange × ℕ
  | dl :: dsc :: len :: tt :: tm :: rest, g, t, currentLine, currentCharacter =>
    let t' := if yieldAt g then t + 1 else t
    if yieldAt g && cancelled t' then ([], t')
    else
      let tokenType := (ctx.legend.tokenTypes.getD tt "")
      let tokenModifiers :=
        (ctx.legend.tokenModifiers.enum.filter (fun p => Nat.testBit tm p.1)).map Prod.snd
      let lnum := currentLine + dl
      let startCharacter := if dl = 0 then currentCharacter + dsc else dsc
      let endCharacter := startCharacter + len
      let item := mkHighlightItem ctx lnum startCharacter endCharacter
        tokenType tokenModifiers
      let (restItems, tf) :=
        getTokenRangesGo ctx yieldAt cancelled rest (g + 1) t' lnum startCharacter
      (item :: restItems, tf)
  | _, _, t, _, _ => ([], t)

/-- `getTokenRanges` (source lines 194-222): decode a flat token array
into spans, yielding (per the `yieldAt` oracle) and checking cancellation
after every yield; return `none` when the token is cancelled at the final
check, otherwise the decoded spans.  Also returns the final time. -/
def getTokenRanges (ctx : DecodeCtx) (yieldAt cancelled : ℕ → Bool)
    (tokens : List ℕ) (t : ℕ) : Option (List SemanticTokenRange) × ℕ :=
  let (highlights, tf) := getTokenRangesGo ctx yieldAt cancelled tokens 0 t 0 0
  if cancelled tf then (none, tf) else (some highlights, tf)

structure HighlightItem where
  lnum : ℕ
  hlGroup : String
  colStart : ℕ
  colEnd : ℕ
  combine : Bool
  start_incl : Bool := false
  end_incl : Bool := false
deriving Repr, DecidableEq

/-- `toHighlightItems` (source lines 270-292): keep only spans that
resolved to a highlight group, optionally restricted to
`[startLine, endLine)`, and mark spans of an `incrementTypes` token type
as extensible on both ends. -/
def toHighlightItems (incrementTypes : List String)
    (highlights : List SemanticTokenRange)
    (startLine endLine : Option ℕ) : List HighlightItem :=
  let filter := startLine.isSome && endLine.isSome
  match highlights with
  | [] => []
  | hi :: rest =>
    let tail := toHighlightItems incrementTypes rest startLine endLine
    match hi.hlGroup with
    | none => tail
    | some g =>
      let lnum := hi.line
      if filter && (lnum < startLine.getD 0 || endLine.getD 0 ≤ lnum) then tail
      else
        let incl := incrementTypes.contains hi.tokenType
        { lnum := lnum, hlGroup := g, colStart := hi.colStart, colEnd := hi.colEnd,
          combine := hi.combine, start_incl := incl, end_incl := incl } :: tail

/-- A span of the reference decoding, carrying both the character offsets
of the spec's running cursor and the byte columns they convert to. -/
structure SpecSpan where
  line : ℕ
  startCharacter : ℕ
  endCharacter : ℕ
  colStart : ℕ
  colEnd : ℕ
  tokenType : String
  modifiers : List String
deriving Repr, DecidableEq

/-- Reference decoding following the spec's words (claim C1): maintain a
running `(line, col)` cursor starting at `(0, 0)`; for each group
`line += deltaLine`; `col = deltaLine == 0 ? col + deltaStartCol :
deltaStartCol`; `endCol = col + length`; modifiers are the legend modifier
names whose bit is set in the bitmask; stored columns are the byte indices
of the character offsets in the document's current line text. -/
def specDecode (ctx : DecodeCtx) : List (ℕ × ℕ × ℕ × ℕ × ℕ) → ℕ → ℕ → List SpecSpan
  | [], _, _ => []
  | (dl, dsc, len, tt, tm) :: rest, line, col =>
    let line' := line + dl
    let col' := if dl = 0 then col + dsc else dsc
    let endCol := col' + len
    let text := ctx.getline line'
    { line := line', startCharacter := col', endCharacter := endCol,
      colStart := byteIndex text col', colEnd := byteIndex text endCol,
      tokenType := ctx.legend.tokenTypes.getD tt "",
      modifiers :=
        (ctx.legend.tokenModifiers.enum.filter (fun p => Nat.testBit tm p.1)).map Prod.snd }
      :: specDecode ctx rest line' col'

/-- Chop a flat token array into its 5-integer groups, dropping a trailing
fragment of fewer than five integers. -/
def toGroups : List ℕ → List (ℕ × ℕ × ℕ × ℕ × ℕ)
  | dl :: dsc :: len :: tt :: tm :: rest => (dl, dsc, len, tt, tm) :: toGroups rest
  | _ => []

/-- Forget a decoded span's display fields, keeping what claim C1
describes. -/
def projSpan (r : SemanticTokenRange) : ℕ × ℕ × ℕ × String × List String :=
  (r.line, r.colStart, r.colEnd, r.tokenType, r.tokenModifiers)

/-- The same projection of a reference span. -/
def projSpec (s : SpecSpan) : ℕ × ℕ × ℕ × String × List String :=
  (s.line, s.colStart, s.colEnd, s.tokenType, s.modifiers)

/-- The decoder loop's value on a run that is never interrupted: the list
of spans pushed for a group list, independent of time and of the yield
oracle. -/
def decodeGroups (ctx : DecodeCtx) : List (ℕ × ℕ × ℕ × ℕ × ℕ) → ℕ → ℕ → List SemanticTokenRange
  | [], _, _ => []
  | (dl, dsc, len, tt, tm) :: rest, currentLine, currentCharacter =>
    let tokenType := ctx.legend.tokenTypes.getD tt ""
    let tokenModifiers :=
      (ctx.legend.tokenModifiers.enum.filter (fun p => Nat.testBit tm p.1)).map Prod.snd
    let lnum := currentLine + dl
    let startCharacter := if dl = 0 then currentCharacter + dsc else dsc
    mkHighlightItem ctx lnum startCharacter (startCharacter + len) tokenType tokenModifiers
      :: decodeGroups ctx rest lnum startCharacter

/-- The complete, uninterrupted decoding of a flat token array. -/
def decodeSpans (ctx : DecodeCtx) (tokens : List ℕ) (l ch : ℕ) : List SemanticTokenRange :=
  decodeGroups ctx (toGroups tokens) l ch

theorem getTokenRangesGo_time_le (ctx : DecodeCtx) (y c : ℕ → Bool) :
    ∀ tokens g t l ch, t ≤ (getTokenRangesGo ctx y c tokens g t l ch).2 := by
  intro tokens g t l ch
  induction tokens, g, t, l, ch using getTokenRangesGo.induct ctx y c with
  | case1 dl dsc len tt tm rest g t l ch t' hbr =>
    have hbr' : (y g && c (if y g = true then t + 1 else t)) = true := hbr
    simp only [getTokenRangesGo, hbr', if_true]
    split <;> omega
  | case2 dl dsc len tt tm rest g t l ch t' hne lnum sc restItems tf heq ih =>
    have hne' : ¬(y g && c (if y g = true then t + 1 else t)) = true := hne
    simp only [getTokenRangesGo, hne', if_false]
    exact le_trans (show t ≤ (if y g = true then t + 1 else t) by split <;> omega) ih
  | case3 tokens g t l ch h =>
    rw [getTokenRangesGo.eq_def]
    split
    · exact absurd rfl (h _ _ _ _ _ _)
    · exact le_refl t

theorem toGroups_nil_of_short {tokens : List ℕ}
    (h : ∀ (dl dsc len tt tm : ℕ) (rest : List ℕ),
      tokens = dl :: dsc :: len :: tt :: tm :: rest → False) :
    toGroups tokens = [] := by
  rcases tokens with _ | ⟨a, _ | ⟨b, _ | ⟨d, _ | ⟨e, _ | ⟨f, r5⟩⟩⟩⟩⟩
  · rfl
  · rfl
  · rfl
  · rfl
  · rfl
  · exact absurd rfl (h a b d e f r5)

theorem getTokenRangesGo_full (ctx : DecodeCtx) (y c : ℕ → Bool) :
    ∀ tokens g t l ch,
      c (getTokenRangesGo ctx y c tokens g t l ch).2 = false →
      (getTokenRangesGo ctx y c tokens g t l ch).1 = decodeSpans ctx tokens l ch := by
  intro tokens g t l ch
  induction tokens, g, t, l, ch using getTokenRangesGo.induct ctx y c with
  | case1 dl dsc len tt tm rest g t l ch t' hbr =>
    intro hc
    have hbr' : (y g && c (if y g = true then t + 1 else t)) = true := hbr
    simp only [getTokenRangesGo, hbr', if_true] at hc
    simp only [Bool.and_eq_true] at hbr'
    rw [hbr'.2] at hc
    cases hc
  | case2 dl dsc len tt tm rest g t l ch t' hne lnum sc restItems tf heq ih =>
    intro hc
    have hne' : ¬(y g && c (if y g = true then t + 1 else t)) = true := hne
    simp only [getTokenRangesGo, hne', Bool.false_eq_true, if_false] at hc ⊢
    simp only [decodeSpans, toGroups, decodeGroups, List.cons.injEq]
    exact ⟨trivial, ih hc⟩
  | case3 tokens g t l ch h =>
    intro _
    rw [decodeSpans, toGroups_nil_of_short h, decodeGroups]
    rw [getTokenRangesGo.eq_def]
    split
    · exact absurd rfl (h _ _ _ _ _ _)
    · rfl

/-- `getTokenRanges` returns `none` or the complete decoding, never a
partial list. -/
theorem getTokenRanges_none_or_full (ctx : DecodeCtx) (y c : ℕ → Bool)
    (tokens : List ℕ) (t : ℕ) :
    (getTokenRanges ctx y c tokens t).1 = none ∨
    (getTokenRanges ctx y c tokens t).1 = some (decodeSpans ctx tokens 0 0) := by
  rw [getTokenRanges]
  by_cases hc : c (getTokenRangesGo ctx y c tokens 0 t 0 0).2 = true
  · left; simp [hc]
  · right
    simp only [Bool.not_eq_true] at hc
    simp [hc, getTokenRangesGo_full ctx y c tokens 0 t 0 0 hc]

theorem decodeGroups_proj (ctx : DecodeCtx) :
    ∀ gs l ch, (decodeGroups ctx gs l ch).map projSpan
      = (specDecode ctx gs l ch).map projSpec := by
  intro gs
  induction gs with
  | nil => intro l ch; rfl
  | cons g rest ih =>
    intro l ch
    obtain ⟨dl, dsc, len, tt, tm⟩ := g
    rw [decodeGroups, specDecode]
    simp only [List.map_cons, List.cons.injEq]
    exact ⟨rfl, ih _ _⟩

theorem decodeGroups_length (ctx : DecodeCtx) :
    ∀ gs l ch, (decodeGroups ctx gs l ch).length = gs.length := by
  intro gs
  induction gs with
  | nil => intro l ch; rfl
  | cons g rest ih =>
    intro l ch
    obtain ⟨dl, dsc, len, tt, tm⟩ := g
    rw [decodeGroups]
    simp [ih]

theorem toGroups_length :
    ∀ tokens : List ℕ, (toGroups tokens).length = tokens.length / 5 := by
  intro tokens
  induction tokens using toGroups.induct with
  | case1 dl dsc len tt tm rest ih =>
    rw [toGroups]
    simp only [List.length_cons, ih]
    omega
  | case2 tokens h =>
    rw [toGroups_nil_of_short h]
    rcases tokens with _ | ⟨a, _ | ⟨b, _ | ⟨d, _ | ⟨e, _ | ⟨f, r5⟩⟩⟩⟩⟩
    · rfl
    · norm_num
    · norm_num
    · norm_num
    · norm_num
    · exact absurd rfl (h a b d e f r5)

theorem decodeGroups_line_le (ctx : DecodeCtx) :
    ∀ gs l ch r, r ∈ decodeGroups ctx gs l ch → l ≤ r.line := by
  intro gs
  induction gs with
  | nil =>
    intro l ch r hr
    cases hr
  | cons g rest ih =>
    intro l ch r hr
    obtain ⟨dl, dsc, len, tt, tm⟩ := g
    rw [decodeGroups] at hr
    rcases List.mem_cons.mp hr with h | h
    · subst h; exact Nat.le_add_right l dl
    · exact le_trans (Nat.le_add_right l dl) (ih _ _ r h)

theorem decodeGroups_chain (ctx : DecodeCtx) :
    ∀ gs l ch, (decodeGroups ctx gs l ch).Chain' (fun a b => a.line ≤ b.line) := by
  intro gs
  induction gs with
  | nil => intro l ch; simp [decodeGroups]
  | cons g rest ih =>
    intro l ch
    obtain ⟨dl, dsc, len, tt, tm⟩ := g
    rw [decodeGroups]
    refine List.chain'_cons'.mpr ⟨?_, ih _ _⟩
    intro b hb
    exact decodeGroups_line_le ctx rest _ _ b (List.mem_of_mem_head? hb)

/-- Legend and document of the worked example in the spec. -/
def exCtx : DecodeCtx :=
  { legend := ⟨["keyword", "variable"], []⟩,
    getline := fun _ => "abcdefghij",
    highlightGroups := [],
    combinedModifiers := [] }

/-- Token array of the worked example in the spec. -/
def exTokens : List ℕ := [0, 0, 5, 0, 0, 2, 2, 3, 1, 0]

/-- **C1**: for every flat token array, legend and never-cancelled token,
`getTokenRanges` decodes one span per 5-integer group following the
running-cursor recurrence (absolute line = running sum of `deltaLine`,
start character = `previousCharacter + deltaStartCol` when `deltaLine = 0`
else `deltaStartCol`, end = start + length, modifiers = legend names whose
bit is set, columns = byte indices of the character offsets in the
document's current line text); when the length is a multiple of 5 there
are exactly `length / 5` spans, lines are monotonically non-decreasing, an
empty array decodes to an empty sequence, and the spec's worked example
`[0,0,5,0,0, 2,2,3,1,0]` decodes to `{line 0, col 0-5, keyword}` and
`{line 2, col 2-5, variable}`. -/
theorem c1_decode_correct (ctx : DecodeCtx) (yieldAt : ℕ → Bool) (t : ℕ) (tokens : List ℕ) :
    ((getTokenRanges ctx yieldAt (fun _ => false) tokens t).1.map (List.map projSpan)
        = some ((specDecode ctx (toGroups tokens) 0 0).map projSpec)) ∧
    (tokens.length % 5 = 0 →
      (((getTokenRanges ctx yieldAt (fun _ => false) tokens t).1.getD []).length
        = tokens.length / 5)) ∧
    (((getTokenRanges ctx yieldAt (fun _ => false) tokens t).1.getD []).Chain'
        (fun a b => a.line ≤ b.line)) ∧
    (tokens = [] → (getTokenRanges ctx yieldAt (fun _ => false) tokens t).1 = some []) ∧
    ((getTokenRanges exCtx (fun _ => false) (fun _ => false) exTokens 0).1.isSome ∧
      ((getTokenRanges exCtx (fun _ => false) (fun _ => false) exTokens 0).1.getD []).map
          projSpan
        = [(0, 0, 5, "keyword", ([] : List String)), (2, 2, 5, "variable", [])]) := by
  have hres : (getTokenRanges ctx yieldAt (fun _ => false) tokens t).1
      = some (decodeSpans ctx tokens 0 0) := by
    rcases getTokenRanges_none_or_full ctx yieldAt (fun _ => false) tokens t with h | h
    · rw [getTokenRanges] at h
      simp at h
    · exact h
  refine ⟨?_, ?_, ?_, ?_, ?_⟩
  · rw [hres]
    simp [decodeSpans, decodeGroups_proj]
  · intro _
    rw [hres]
    simp [decodeSpans, decodeGroups_length, toGroups_length]
  · rw [hres]
    simpa [decodeSpans] using decodeGroups_chain ctx (toGroups tokens) 0 0
  · intro he
    subst he
    rw [hres]
    rfl
  · decide

/-- Witness for C1: the length hypotheses discharged on the worked
example. -/
theorem c1_decode_correct_witness :
    exTokens.length % 5 = 0 ∧
    (((getTokenRanges exCtx (fun _ => false) (fun _ => false) exTokens 0).1.getD []).length
        = exTokens.length / 5) :=
  ⟨by decide, (c1_decode_correct exCtx (fun _ => false) 0 exTokens).2.1 (by decide)⟩

theorem resolveLoop_eq_findSome (gs cm : List String) (mk : String → String) :
    ∀ mods, resolveLoop gs cm mk mods = mods.findSome? (fun item =>
      if gs.contains (mk item) then some (mk item, cm.contains item) else none) := by
  intro mods
  induction mods with
  | nil => rfl
  | cons m rest ih =>
    rw [resolveLoop, List.findSome?]
    by_cases h : gs.contains (mk m)
    · simp only [h, if_true]
    · simp only [h, Bool.false_eq_true, if_false, ih]

theorem toHighlightItems_sound (inc : List String) :
    ∀ hs sl el it, it ∈ toHighlightItems inc hs sl el →
      ∃ hi ∈ hs, hi.hlGroup = some it.hlGroup := by
  intro hs
  induction hs with
  | nil => intro sl el it hit; cases hit
  | cons hi rest ih =>
    intro sl el it hit
    rw [toHighlightItems] at hit
    rcases hg : hi.hlGroup with _ | g
    · rw [hg] at hit
      obtain ⟨hi', hm, he⟩ := ih sl el it hit
      exact ⟨hi', List.mem_cons_of_mem _ hm, he⟩
    · rw [hg] at hit
      simp only [] at hit
      split at hit
      · obtain ⟨hi', hm, he⟩ := ih sl el it hit
        exact ⟨hi', List.mem_cons_of_mem _ hm, he⟩
      · rcases List.mem_cons.mp hit with h | h
        · subst h
          exact ⟨hi, List.mem_cons_self _ _, hg⟩
        · obtain ⟨hi', hm, he⟩ := ih sl el it h
          exact ⟨hi', List.mem_cons_of_mem _ hm, he⟩

theorem toHighlightItems_filterMap (inc : List String) :
    ∀ hs, toHighlightItems inc hs none none
      = hs.filterMap (fun hi => hi.hlGroup.map (fun g =>
          { lnum := hi.line, hlGroup := g, colStart := hi.colStart, colEnd := hi.colEnd,
            combine := hi.combine, start_incl := inc.contains hi.tokenType,
            end_incl := inc.contains hi.tokenType })) := by
  intro hs
  induction hs with
  | nil => rfl
  | cons hi rest ih =>
    rw [toHighlightItems, List.filterMap_cons]
    rcases hg : hi.hlGroup with _ | g
    · simpa [hg] using ih
    · simp only [hg, Option.map_some]
      simpa using ih

/-- Available groups of the resolution-priority scenario in the spec. -/
def exResolveCtx : DecodeCtx :=
  { legend := ⟨[], []⟩,
    getline := fun _ => "",
    highlightGroups := ["CocSemReadonly", "CocSemDeclarationVariable"],
    combinedModifiers := [] }

/-- A decoded span with a resolved group, used in the C2 witness. -/
def exResolvedSpan : SemanticTokenRange :=
  { line := 3, colStart := 0, colEnd := 2, tokenType := "t", tokenModifiers := [],
    hlGroup := some "G", combine := false }

/-- The forwarded rendering of `exResolvedSpan`. -/
def exForwardedItem : HighlightItem :=
  { lnum := 3, hlGroup := "G", colStart := 0, colEnd := 2, combine := false }

/-- **C2**: the highlight group resolver picks, in strict priority order,
the first available `CocSem+Modifier+Type` (walking modifiers in provider
order), else the first available `CocSem+Modifier`, else `CocSem+Type`,
else no group; the combine flag comes from membership of the winning
modifier in `combinedModifiers` and is `false` for the bare-type match;
a span with no resolved group is still appended to the decoded list but is
never forwarded by `toHighlightItems`; and in the spec's scenario
`CocSemDeclarationVariable` beats `CocSemReadonly`. -/
theorem c2_group_resolution (ctx : DecodeCtx) (lnum s e : ℕ) (ty : String)
    (mods : List String) (hs : List SemanticTokenRange) (inc : List String) :
    (((mkHighlightItem ctx lnum s e ty mods).hlGroup,
        (mkHighlightItem ctx lnum s e ty mods).combine) =
      match mods.findSome? (fun item =>
          if ctx.highlightGroups.contains (hlGroupStart ++ upperFirst item ++ upperFirst ty)
          then some (hlGroupStart ++ upperFirst item ++ upperFirst ty,
            ctx.combinedModifiers.contains item) else none) with
      | some (g, c) => (some g, c)
      | none =>
        match mods.findSome? (fun item =>
            if ctx.highlightGroups.contains (hlGroupStart ++ upperFirst item)
            then some (hlGroupStart ++ upperFirst item,
              ctx.combinedModifiers.contains item) else none) with
        | some (g, c) => (some g, c)
        | none =>
          if ctx.highlightGroups.contains (hlGroupStart ++ upperFirst ty)
          then (some (hlGroupStart ++ upperFirst ty), false)
          else (none, false)) ∧
    (addHighlightItems ctx hs lnum s e ty mods
      = hs ++ [mkHighlightItem ctx lnum s e ty mods]) ∧
    (∀ sl el it, it ∈ toHighlightItems inc hs sl el →
      ∃ hi ∈ hs, hi.hlGroup = some it.hlGroup) ∧
    (toHighlightItems inc hs none none
      = hs.filterMap (fun hi => hi.hlGroup.map (fun g =>
          { lnum := hi.line, hlGroup := g, colStart := hi.colStart, colEnd := hi.colEnd,
            combine := hi.combine, start_incl := inc.contains hi.tokenType,
            end_incl := inc.contains hi.tokenType }))) ∧
    ((mkHighlightItem exResolveCtx 0 0 1 "variable" ["declaration", "readonly"]).hlGroup
      = some "CocSemDeclarationVariable" ∧
     (mkHighlightItem exResolveCtx 0 0 1 "variable" ["declaration", "readonly"]).combine
      = false) := by
  refine ⟨?_, rfl, toHighlightItems_sound inc hs, toHighlightItems_filterMap inc hs, by decide⟩
  rw [mkHighlightItem]
  simp only [← resolveLoop_eq_findSome]
  rcases h1 : resolveLoop ctx.highlightGroups ctx.combinedModifiers
      (fun item => hlGroupStart ++ upperFirst item ++ upperFirst ty) mods with _ | ⟨g, c⟩
  · rcases h2 : resolveLoop ctx.highlightGroups ctx.combinedModifiers
        (fun item => hlGroupStart ++ upperFirst item) mods with _ | ⟨g, c⟩
    · simp only [h1, h2]
    · simp only [h1, h2]
  · simp only [h1]

/-- Witness for C2: the forwarded-items hypothesis discharged on a
one-span list with a resolved group. -/
theorem c2_group_resolution_witness :
    ∃ hi ∈ [exResolvedSpan], hi.hlGroup = some exForwardedItem.hlGroup :=
  (c2_group_resolution exCtx 0 0 0 "t" [] [exResolvedSpan] []).2.2.1 none none
    exForwardedItem (by decide)

/-! ## The engine state machine

`SemanticTokensBuffer`'s mutable fields become `EngineState`; the
environment of one highlight pass (provider capabilities and replies,
editor queries, diff results, cancellation observations indexed by the
number of suspension points passed) becomes `PassEnv`.  Cancellation token
sources are numbered handles; cancelling one records its number. -/

/-- How a provider call can fail: with the `CancellationError` the source
tests with `instanceof`, or with any other error. -/
inductive ProviderError where
  | cancellation
  | other
deriving Repr, DecidableEq

/-- A `SemanticTokens` value: `resultId?` and the flat `data` array. -/
structure SemanticTokensModel where
  resultId : Option String
  data : List ℕ
deriving Repr, DecidableEq

/-- One edit of a `SemanticTokensDelta`. -/
structure SemanticTokensEdit where
  start : ℕ
  deleteCount : ℕ
  data : Option (List ℕ)
deriving Repr, DecidableEq

/-- Reply to `provideDocumentSemanticTokensEdits`: either full tokens or a
delta. -/
inductive DeltaResponse where
  | tokens (m : SemanticTokensModel)
  | delta (resultId : Option String) (edits : List SemanticTokensEdit)
deriving Repr, DecidableEq

/-- One `tokens.splice(e.start, e.deleteCount, ...e.data)` call of
`requestAllHighlights` (source line 485). -/
def spliceEdit (tokens : List ℕ) (e : SemanticTokensEdit) : List ℕ :=
  tokens.take e.start ++ e.data.getD [] ++ tokens.drop (e.start + e.deleteCount)

/-- `SemanticTokensPreviousResult` of the source. -/
structure PreviousResult where
  version : ℕ
  resultId : Option String
  tokens : List ℕ
deriving Repr, DecidableEq

/-- The engine's mutable fields (`SemanticTokensBuffer`), together with
the document data it reads (`doc.version`, `doc.dirty`, `doc.lineCount`)
and the bookkeeping of cancellation token sources as numbered handles. -/
structure EngineState where
  docVersion : ℕ
  docDirty : Bool
  lineCount : ℕ
  hlVersion : Option ℕ
  dirty : Bool
  highlights : Option (ℕ × List SemanticTokenRange)
  previousResults : Option PreviousResult
  regions : List (ℕ × ℕ)
  tokenSource : Option ℕ
  rangeTokenSource : Option ℕ
  nextHandle : ℕ
  cancelledHandles : List ℕ
  pendingHighlight : Option ℕ
deriving Repr, DecidableEq

/-- The environment of one pass: provider capabilities, configuration,
one reply per provider call, editor query results, and the observations of
the two cancellation tokens and of the diff results, indexed by the time
(number of suspension points passed). -/
structure PassEnv where
  configEnabled : Bool
  updateHighlight : Bool
  hasLegend : Bool
  hasFullProvider : Bool
  hasRangeProvider : Bool
  hasEditProvider : Bool
  hidden : Bool
  lines : ℕ
  legend : SemanticTokensLegend
  rangeLegend : SemanticTokensLegend
  getline : ℕ → String
  highlightGroups : List String
  combinedModifiers : List String
  incrementTypes : List String
  cancelled : ℕ → Bool
  rangeCancelled : ℕ → Bool
  yieldAt : ℕ → Bool
  fullResponse : Except ProviderError (Option SemanticTokensModel)
  editsResponse : Except ProviderError (Option DeltaResponse)
  rangeResponse : Except ProviderError (Option SemanticTokensModel)
  visibleRange : Option (ℕ × ℕ)
  visibleRanges : List (ℕ × ℕ)
  diffResult : ℕ → Bool

/-- Externally visible calls of a pass, in program order.  `echoMessage`
stands for a call to the user-facing messaging collaborator
(`window.showMessage` and relatives); no function of this file emits it —
the engine's error path only logs. -/
inductive Action where
  | evalHidden
  | requestFull
  | requestDelta (resultId : String)
  | requestRange
  | diffFull
  | applyFull
  | diffRegion (start stop : ℕ)
  | applyRegion (start stop : ℕ)
  | clearRegions
  | clearNamespace
  | logError
  | echoMessage
  | fireRefresh
deriving Repr, DecidableEq

/-- `enabled` (source lines 182-185): configuration on, host supports
highlight updates, a legend is published, and a provider exists. -/
def enabled (env : PassEnv) : Bool :=
  env.configEnabled && env.updateHighlight && env.hasLegend &&
    (env.hasFullProvider || env.hasRangeProvider)

/-- `rangeProviderOnly` (source lines 155-158). -/
def rangeProviderOnly (env : PassEnv) : Bool :=
  !env.hasFullProvider && env.hasRangeProvider

/-- `shouldRangeHighlight` (source lines 160-163). -/
def shouldRangeHighlight (env : PassEnv) (s : EngineState) : Bool :=
  env.hasRangeProvider && s.previousResults = none

/-- The decode context of the full-document legend. -/
def decodeCtx (env : PassEnv) : DecodeCtx :=
  ⟨env.legend, env.getline, env.highlightGroups, env.combinedModifiers⟩

/-- The decode context of the range legend (`getLegend(textDocument, true)`). -/
def rangeDecodeCtx (env : PassEnv) : DecodeCtx :=
  ⟨env.rangeLegend, env.getline, env.highlightGroups, env.combinedModifiers⟩

/-- The `highlights` getter (source lines 172-176): the cached decoded
spans, valid only while their version tag equals the document version. -/
def currentHighlights (s : EngineState) : Option (List SemanticTokenRange) :=
  match s.highlights with
  | none => none
  | some (v, hs) => if v = s.docVersion then some hs else none

/-- `cancel` (source lines 503-517): cancel and dispose the range token
source; unless `rangeOnly`, also clear the painted regions, clear the
pending debounced highlight, and cancel and dispose the full token
source.  Both sources are set to `null`. -/
def cancel (s : EngineState) (rangeOnly : Bool) : EngineState :=
  let s :=
    match s.rangeTokenSource with
    | some h => { s with rangeTokenSource := none, cancelledHandles := h :: s.cancelledHandles }
    | none => s
  if rangeOnly then s
  else
    let s := { s with regions := [], pendingHighlight := none }
    match s.tokenSource with
    | some h => { s with tokenSource := none, cancelledHandles := h :: s.cancelledHandles }
    | none => s

/-- Modelled from the spec: `Regions.has` (`src/model/regions` is not
under `src/`): whether `[s, e)` is already covered by a recorded painted
interval. -/
def regionsHas (rs : List (ℕ × ℕ)) (s e : ℕ) : Bool :=
  rs.any fun r => r.1 ≤ s && e ≤ r.2

/-- Modelled from the spec: `Regions.add`: record `[s, e)`, coalescing
with every overlapping or adjacent recorded interval ("merged on
insertion so overlapping/adjacent intervals coalesce"). -/
def regionsAdd (rs : List (ℕ × ℕ)) (s e : ℕ) : List (ℕ × ℕ) :=
  let touching := rs.filter fun r => r.1 ≤ e && s ≤ r.2
  let rest := rs.filter fun r => !(r.1 ≤ e && s ≤ r.2)
  (touching.foldl (fun a r => min a r.1) s,
   touching.foldl (fun a r => max a r.2) e) :: rest

/-- Modelled from the spec: `Regions.mergeSpans`: merge the overlapping
expanded viewport spans into non-overlapping ones. -/
def mergeSpans (spans : List (ℕ × ℕ)) : List (ℕ × ℕ) :=
  spans.foldl (fun acc r => regionsAdd acc r.1 r.2) []

/-- The span expansion of `highlightRegions` (source lines 416-420):
`o[0] = max(0, floor(s - height * 1.5))` and
`o[1] = min(lineCount, ceil(e + height * 1.5), s + height * 2)`, with the
float arithmetic carried out exactly in `ℚ`. -/
def expandSpan (lineCount height : ℕ) (p : ℕ × ℕ) : ℕ × ℕ :=
  (Int.toNat (max 0 ⌊(p.1 : ℚ) - height * ((3 : ℚ) / 2)⌋),
   Int.toNat (min (lineCount : ℤ)
     (min ⌈(p.2 : ℚ) + height * ((3 : ℚ) / 2)⌉ ((p.1 : ℤ) + 2 * height))))

/-- `sendRequest` (source lines 359-372): catch a provider failure; when
the pass's own token is not cancelled, a `CancellationError` reschedules a
highlight after `requestDelay` and any other error is logged; the call
yields no result either way. -/
def sendRequest {α : Type} (r : Except ProviderError (Option α)) (cancelledNow : Bool) :
    Option α × Option ℕ × List Action :=
  match r with
  | .ok v => (v, none, [])
  | .error e =>
    if !cancelledNow then
      match e with
      | .cancellation => (none, some requestDelay, [])
      | .other => (none, none, [.logError])
    else (none, none, [])

/-- The full-request branch of `requestAllHighlights` (source line 476 and
478-481): one provider call, then decode; `previousResults` is replaced
only when a non-null reply arrives uncancelled. -/
def requestFullPath (env : PassEnv) (s : EngineState) (t : ℕ) :
    Except ProviderError (Option (List SemanticTokenRange)) × Option PreviousResult
      × ℕ × List Action :=
  let version := s.docVersion
  let t := t + 1
  match env.fullResponse with
  | .error err => (.error err, s.previousResults, t, [.requestFull])
  | .ok none => (.ok none, s.previousResults, t, [.requestFull])
  | .ok (some result) =>
    if env.cancelled t then (.ok none, s.previousResults, t, [.requestFull])
    else
      let prev := some { version := version, resultId := result.resultId,
                         tokens := result.data }
      let (hls, tf) := getTokenRanges (decodeCtx env) env.yieldAt env.cancelled result.data t
      (.ok hls, prev, tf, [.requestFull])

/-- `requestAllHighlights` (source lines 466-490): an edit-delta request
when an edit provider exists and the (non-`forceFull`) previous result
carries a `resultId`, otherwise a full request; delta edits are spliced
into the cached raw token array; the result is decoded and
`previousResults` replaced with the current version. -/
def requestAllHighlights (env : PassEnv) (s : EngineState) (forceFull : Bool) (t : ℕ) :
    Except ProviderError (Option (List SemanticTokenRange)) × Option PreviousResult
      × ℕ × List Action :=
  let previousResult := if forceFull then none else s.previousResults
  let version := s.docVersion
  match env.hasEditProvider, previousResult with
  | true, some pr =>
    match pr.resultId with
    | some rid =>
      let t := t + 1
      (match env.editsResponse with
       | .error err => (.error err, s.previousResults, t, [.requestDelta rid])
       | .ok none => (.ok none, s.previousResults, t, [.requestDelta rid])
       | .ok (some result) =>
         if env.cancelled t then (.ok none, s.previousResults, t, [.requestDelta rid])
         else
           let p :=
             match result with
             | .tokens m => (m.resultId, m.data)
             | .delta r edits => (r, edits.foldl spliceEdit pr.tokens)
           let prev := some { version := version, resultId := p.1, tokens := p.2 }
           let (hls, tf) := getTokenRanges (decodeCtx env) env.yieldAt env.cancelled p.2 t
           (.ok hls, prev, tf, [.requestDelta rid]))
    | none => requestFullPath env s t
  | _, _ => requestFullPath env s t

/-- The request branch of the decode step (source lines 322-327),
wrapping `requestAllHighlights` in `sendRequest`. -/
def requestPhase (env : PassEnv) (s : EngineState) (forceFull : Bool) (t : ℕ) :
    Option (List SemanticTokenRange) × EngineState × ℕ × List Action :=
  let version := s.docVersion
  let q := requestAllHighlights env s forceFull t
  let tf := q.2.2.1
  let s := { s with previousResults := q.2.1 }
  let w := sendRequest q.1 (env.cancelled tf)
  let s := match w.2.1 with
    | some d => { s with pendingHighlight := some d }
    | none => s
  match w.1 with
  | some hs => (some hs, { s with highlights := some (version, hs) }, tf, q.2.2.2 ++ w.2.2)
  | none => (none, s, tf, q.2.2.2 ++ w.2.2)

/-- The decode step of `doHighlight` (source lines 308-327): for an
unchanged version, reuse the cached decoded result or re-decode the cached
raw tokens; otherwise request from the provider. -/
def decodePhase (env : PassEnv) (s : EngineState) (forceFull : Bool) (t : ℕ) :
    Option (List SemanticTokenRange) × EngineState × ℕ × List Action :=
  let version := s.docVersion
  match s.previousResults with
  | some pr =>
    if version = pr.version then
      match s.highlights with
      | some (v, hs) =>
        if v = version then (some hs, s, t, [])
        else
          let q := getTokenRanges (decodeCtx env) env.yieldAt env.cancelled pr.tokens t
          match q.1 with
          | some hs2 => (some hs2, { s with highlights := some (version, hs2) }, q.2, [])
          | none => (none, s, q.2, [])
      | none =>
        let q := getTokenRanges (decodeCtx env) env.yieldAt env.cancelled pr.tokens t
        match q.1 with
        | some hs2 => (some hs2, { s with highlights := some (version, hs2) }, q.2, [])
        | none => (none, s, q.2, [])
    else requestPhase env s forceFull t
  | none => requestPhase env s forceFull t

/-- The loop of `highlightRegions` (source lines 421-428) over the merged
spans: skip a span already recorded as painted (unless `skipCheck`), call
the renderer's diff (passing the highlight items restricted to
`[start, stop)`), break if cancelled after the diff, record the span as
painted and fire-and-forget the apply when a diff arrived. -/
def highlightRegionsGo (env : PassEnv) (cancelled : ℕ → Bool) (skipCheck : Bool) :
    List (ℕ × ℕ) → EngineState → ℕ → EngineState × ℕ × List Action
  | [], s, t => (s, t, [])
  | (start, stop) :: rest, s, t =>
    if !skipCheck && regionsHas s.regions start stop then
      highlightRegionsGo env cancelled skipCheck rest s t
    else
      let t := t + 1
      let d := env.diffResult t
      if cancelled t then (s, t, [.diffRegion start stop])
      else
        let s := { s with regions := regionsAdd s.regions start stop }
        let q := highlightRegionsGo env cancelled skipCheck rest s t
        (q.1, q.2.1,
          .diffRegion start stop ::
            (if d then .applyRegion start stop :: q.2.2 else q.2.2))

/-- `highlightRegions` (source lines 409-429): nothing to do without a
valid cached decode; query the visible ranges, stop on cancellation or an
empty answer, expand each span by the 1.5x / 2x viewport-height margins
clamped to the document, merge them, and run the loop. -/
def highlightRegions (env : PassEnv) (cancelled : ℕ → Bool) (s : EngineState)
    (t : ℕ) (skipCheck : Bool) : EngineState × ℕ × List Action :=
  match currentHighlights s with
  | none => (s, t, [])
  | some _ =>
    let t := t + 1
    let spans := env.visibleRanges
    if cancelled t || spans.isEmpty then (s, t, [])
    else
      let expanded := spans.map (expandSpan s.lineCount env.lines)
      highlightRegionsGo env cancelled skipCheck (mergeSpans expanded) s t

/-- The apply step of `doHighlight` (source lines 330-341): whole-document
diff-and-apply when not yet dirty or fewer than 200 spans; otherwise clear
the painted-region record and run the incremental `highlightRegions`
pass.  The flag tells whether the step fell through to the refresh
notification (the whole-document branch returns early on cancellation or
a null diff). -/
def applyStage (env : PassEnv) (s : EngineState) (version : ℕ)
    (tokenRanges : List SemanticTokenRange) (t : ℕ) :
    EngineState × ℕ × List Action × Bool :=
  if !s.dirty || tokenRanges.length < 200 then
    let t := t + 1
    let d := env.diffResult t
    if env.cancelled t || !d then (s, t, [.diffFull], false)
    else
      let s := { s with dirty := true, hlVersion := some version }
      let t := t + 1
      (s, t, [.diffFull, .applyFull], true)
  else
    let s := { s with regions := [] }
    let q := highlightRegions env env.cancelled s t false
    (q.1, q.2.1, .clearRegions :: q.2.2, true)

/-- `RangeHighlights` of the source: the decoded spans of a range reply
and the 0-based `[start, stop)` region they cover (`end` in the source). -/
structure RangeHighlights where
  highlights : List SemanticTokenRange
  start : ℕ
  stop : ℕ
deriving Repr, DecidableEq

/-- `requestRangeHighlights` (source lines 448-460): query the visible
range, request the range provider, decode with the range legend; `none`
when anything is missing or cancelled. -/
def requestRangeHighlights (env : PassEnv) (cancelled : ℕ → Bool) (t : ℕ) :
    Except ProviderError (Option (RangeHighlights)) × ℕ × List Action :=
  let t := t + 1
  match env.visibleRange with
  | none => (.ok none, t, [])
  | some region =>
    if cancelled t then (.ok none, t, [])
    else
      let t := t + 1
      match env.rangeResponse with
      | .error err => (.error err, t, [.requestRange])
      | .ok none => (.ok none, t, [.requestRange])
      | .ok (some res) =>
        if cancelled t then (.ok none, t, [.requestRange])
        else
          let q := getTokenRanges (rangeDecodeCtx env) env.yieldAt cancelled res.data t
          if cancelled q.2 then (.ok none, q.2, [.requestRange])
          else (.ok (some { highlights := q.1.getD [], start := region.1 - 1,
                            stop := region.2 }), q.2, [.requestRange])

/-- `doRangeHighlight` (source lines 377-404): request and decode a range
result; when only a range provider exists or no previous full result is
cached, merge the spans into the running `_highlights` cache, skipping
lines already covered; then diff restricted to the region and apply as a
partial update, marking the engine dirty when a diff arrived. -/
def doRangeHighlight (env : PassEnv) (cancelled : ℕ → Bool) (s : EngineState) (t : ℕ) :
    EngineState × ℕ × List Action :=
  if !enabled env then (s, t, [])
  else
    let version := s.docVersion
    let q := requestRangeHighlights env cancelled t
    let t := q.2.1
    let w := sendRequest q.1 (cancelled t)
    let s := match w.2.1 with
      | some d => { s with pendingHighlight := some d }
      | none => s
    match w.1 with
    | none => (s, t, q.2.2 ++ w.2.2)
    | some rh =>
      if cancelled t then (s, t, q.2.2 ++ w.2.2)
      else
        let s :=
          if rangeProviderOnly env || s.previousResults = none then
            let s :=
              match s.highlights with
              | some (v, _) =>
                if version ≠ v then { s with highlights := some (version, []) } else s
              | none => { s with highlights := some (version, []) }
            let tokenRanges := (s.highlights.getD (version, [])).2
            let used := tokenRanges.map (fun hi => hi.line)
            { s with highlights := some (version,
                tokenRanges ++ rh.highlights.filter (fun hi => !used.contains hi.line)) }
          else s
        let t := t + 1
        let d := env.diffResult t
        if d then
          ({ s with dirty := true }, t + 1,
            q.2.2 ++ w.2.2 ++ [.diffRegion rh.start rh.stop, .applyRegion rh.start rh.stop])
        else (s, t, q.2.2 ++ w.2.2 ++ [.diffRegion rh.start rh.stop])

/-- `doHighlight` (source lines 294-343): cancel any in-flight full pass,
stop when disabled, allocate a fresh full token source, abort when the
buffer is hidden or already cancelled, run the range prelude when
applicable, decode (cache, re-decode or request), abort on no result or
cancellation, then apply and fire the refresh event. -/
def doHighlight (env : PassEnv) (s : EngineState) (forceFull onShown : Bool) :
    EngineState × List Action :=
  let s := cancel s false
  if !enabled env then (s, [])
  else
    let s := { s with tokenSource := some s.nextHandle, nextHandle := s.nextHandle + 1 }
    let p :=
      if !onShown then (env.hidden || env.cancelled 1, 1, [Action.evalHidden])
      else (false, 0, [])
    if p.1 then (s, p.2.2)
    else
      let r :=
        if shouldRangeHighlight env s then
          let s := { s with rangeTokenSource := some s.nextHandle,
                            nextHandle := s.nextHandle + 1 }
          let q := doRangeHighlight env env.rangeCancelled s p.2.1
          (q.1, q.2.1, q.2.2, env.cancelled q.2.1 || rangeProviderOnly env)
        else (s, p.2.1, [], false)
      if r.2.2.2 then (r.1, p.2.2 ++ r.2.2.1)
      else
        let s := r.1
        let version := s.docVersion
        let dq := decodePhase env s forceFull r.2.1
        match dq.1 with
        | none => (dq.2.1, p.2.2 ++ r.2.2.1 ++ dq.2.2.2)
        | some tokenRanges =>
          if env.cancelled dq.2.2.1 then (dq.2.1, p.2.2 ++ r.2.2.1 ++ dq.2.2.2)
          else
            let aq := applyStage env dq.2.1 version tokenRanges dq.2.2.1
            if aq.2.2.2 then
              (aq.1, p.2.2 ++ r.2.2.1 ++ dq.2.2.2 ++ aq.2.2.1 ++ [.fireRefresh])
            else (aq.1, p.2.2 ++ r.2.2.1 ++ dq.2.2.2 ++ aq.2.2.1)

/-- `onCursorMoved` (source lines 431-443): cancel only the range token
source, stop when disabled or the document is dirty, allocate a fresh
range token source, wait out the debounce, then range-highlight or run the
region pass with the range token. -/
def onCursorMoved (env : PassEnv) (s : EngineState) : EngineState × List Action :=
  let s := cancel s true
  if !enabled env || s.docDirty then (s, [])
  else
    let s := { s with rangeTokenSource := some s.nextHandle, nextHandle := s.nextHandle + 1 }
    if env.rangeCancelled 1 then (s, [])
    else if shouldRangeHighlight env s then
      let q := doRangeHighlight env env.rangeCancelled s 1
      (q.1, q.2.2)
    else
      let q := highlightRegions env env.rangeCancelled s 1 false
      (q.1, q.2.2)

/-- `clearHighlight` (source lines 492-497). -/
def clearHighlight (s : EngineState) : EngineState × List Action :=
  ({ s with previousResults := none, highlights := none, regions := [] }, [.clearNamespace])

/-- `abandonResult` (source lines 499-501). -/
def abandonResult (s : EngineState) : EngineState :=
  { s with previousResults := none }

/-- `onTextChange` (source lines 127-129): a text change performs a
full-class cancel. -/
def onTextChange (s : EngineState) : EngineState :=
  cancel s false

/-- `onChange` (source lines 122-125): schedule a debounced highlight. -/
def onChange (s : EngineState) : EngineState :=
  { s with pendingHighlight := some debounceInterval }

/-- `forceHighlight` (source lines 131-135). -/
def forceHighlight (env : PassEnv) (s : EngineState) : EngineState × List Action :=
  let q := clearHighlight s
  let s := cancel q.1 false
  let w := doHighlight env s true false
  (w.1, q.2 ++ w.2)

/-- `dispose` (source lines 519-523). -/
def dispose (s : EngineState) : EngineState × List Action :=
  clearHighlight (cancel s false)

/-- Provider requests among the actions. -/
def isRequest : Action → Bool
  | .requestFull => true
  | .requestDelta _ => true
  | .requestRange => true
  | _ => false

/-- Renderer calls (diff or apply) among the actions: the ways a pass
publishes spans. -/
def isPublish : Action → Bool
  | .diffFull => true
  | .applyFull => true
  | .diffRegion _ _ => true
  | .applyRegion _ _ => true
  | _ => false

theorem cancel_fields (s : EngineState) (b : Bool) :
    (cancel s b).previousResults = s.previousResults ∧
    (cancel s b).highlights = s.highlights ∧
    (cancel s b).docVersion = s.docVersion ∧
    (cancel s b).docDirty = s.docDirty ∧
    (cancel s b).lineCount = s.lineCount ∧
    (cancel s b).nextHandle = s.nextHandle ∧
    (cancel s b).dirty = s.dirty ∧
    (cancel s b).hlVersion = s.hlVersion := by
  rcases hr : s.rangeTokenSource with _ | hR <;> rcases ht : s.tokenSource with _ | hT <;>
    cases b <;> simp [cancel, hr, ht]

/-- A state whose two token sources are live, for the C10 witness. -/
def exStateC10 : EngineState :=
  { docVersion := 3, docDirty := false, lineCount := 10, hlVersion := some 2,
    dirty := true, highlights := some (3, [exResolvedSpan]),
    previousResults := some ⟨3, some "r", [0, 0, 1, 0, 0]⟩, regions := [(0, 4)],
    tokenSource := some 7, rangeTokenSource := some 5, nextHandle := 8,
    cancelledHandles := [2], pendingHighlight := some debounceInterval }

/-- **C10**: a full-class cancel (`cancel()` with `rangeOnly` false, the
call made by `onTextChange`, by the start of `doHighlight`, by
`forceHighlight` and by `dispose`) cancels and disposes the range handle
and the full handle, empties the painted-region set, clears the pending
debounced highlight, leaves `_highlights` and the previous provider
result unchanged, and nulls both handles so a second cancel is a no-op. -/
theorem c10_full_cancel (s : EngineState) :
    ((cancel s false).rangeTokenSource = none) ∧
    ((cancel s false).tokenSource = none) ∧
    ((cancel s false).regions = []) ∧
    ((cancel s false).pendingHighlight = none) ∧
    ((cancel s false).highlights = s.highlights) ∧
    ((cancel s false).previousResults = s.previousResults) ∧
    (∀ h, s.rangeTokenSource = some h → h ∈ (cancel s false).cancelledHandles) ∧
    (∀ h, s.tokenSource = some h → h ∈ (cancel s false).cancelledHandles) ∧
    (cancel (cancel s false) false = cancel s false) ∧
    (onTextChange s = cancel s false) ∧
    ((dispose s).1 = (clearHighlight (cancel s false)).1) := by
  refine ⟨?_, ?_, ?_, ?_, ?_, ?_, ?_, ?_, ?_, rfl, rfl⟩ <;>
    rcases hr : s.rangeTokenSource with _ | hR <;>
      rcases ht : s.tokenSource with _ | hT <;>
        simp [cancel, hr, ht]

/-- Witness for C10: both live handles of `exStateC10` are recorded as
cancelled. -/
theorem c10_full_cancel_witness :
    5 ∈ (cancel exStateC10 false).cancelledHandles ∧
    7 ∈ (cancel exStateC10 false).cancelledHandles :=
  ⟨(c10_full_cancel exStateC10).2.2.2.2.2.2.1 5 rfl,
   (c10_full_cancel exStateC10).2.2.2.2.2.2.2.1 7 rfl⟩

/-- **C8 counterexample**: as stated, the claim requires any
non-cancellation provider error to be both logged and surfaced as a
diagnostic to the user-facing messaging collaborator; `sendRequest` only
logs (there is no user-facing message call in it), so the "surfaced"
half fails already when the pass's token is not cancelled. -/
theorem c8_counterexample :
    ¬ (∀ (r : Except ProviderError (Option (List SemanticTokenRange))) (c : Bool),
        r = .error .other →
          Action.logError ∈ (sendRequest r c).2.2 ∧
          Action.echoMessage ∈ (sendRequest r c).2.2 ∧
          (sendRequest r c).1 = none ∧ (sendRequest r c).2.1 = none) := by
  intro h
  have := h (.error .other) false rfl
  exact absurd this.2.1 (by decide)

/-- **C8 (amended)**: a provider call that throws a cancellation
indication while the pass's token is not cancelled reschedules a highlight
pass after `requestDelay` and yields no result; any other error thrown
while the token is not cancelled is logged only (nothing is surfaced to
the user-facing messaging collaborator), yields no result, and schedules
no retry; an error thrown while the token is already cancelled is ignored
entirely; a normal reply passes through. -/
theorem c8_send_request {α : Type} (r : Except ProviderError (Option α)) (c : Bool) :
    (r = .error .cancellation → c = false →
      sendRequest r c = (none, some requestDelay, [])) ∧
    (r = .error .other → c = false →
      sendRequest r c = (none, none, [Action.logError])) ∧
    (∀ e, r = .error e → c = true → sendRequest r c = (none, none, [])) ∧
    (Action.echoMessage ∉ (sendRequest r c).2.2) ∧
    (∀ v, r = .ok v → sendRequest r c = (v, none, [])) := by
  refine ⟨?_, ?_, ?_, ?_, ?_⟩
  · rintro rfl rfl; rfl
  · rintro rfl rfl; rfl
  · rintro e rfl rfl; rfl
  · rcases r with e | v
    · cases e <;> cases c <;> simp [sendRequest]
    · simp [sendRequest]
  · rintro v rfl; rfl

/-- Witness for C8: the three behaviours at concrete arguments. -/
theorem c8_send_request_witness :
    (sendRequest (.error .cancellation : Except ProviderError (Option ℕ)) false
      = (none, some requestDelay, [])) ∧
    (sendRequest (.error .other : Except ProviderError (Option ℕ)) false
      = (none, none, [Action.logError])) ∧
    (sendRequest (.error .other : Except ProviderError (Option ℕ)) true
      = (none, none, [])) :=
  ⟨(c8_send_request (.error .cancellation) false).1 rfl rfl,
   (c8_send_request (.error .other) false).2.1 rfl rfl,
   (c8_send_request (.error .other) true).2.2.1 .other rfl rfl⟩

/-! ## Painted regions and viewport expansion -/

theorem foldl_min_le (l : List (ℕ × ℕ)) :
    ∀ a, List.foldl (fun x r => min x r.1) a l ≤ a := by
  induction l with
  | nil => intro a; exact le_refl a
  | cons r rest ih =>
    intro a
    exact le_trans (ih (min a r.1)) (min_le_left a r.1)

theorem foldl_min_le_mem (l : List (ℕ × ℕ)) :
    ∀ a r, r ∈ l → List.foldl (fun x q => min x q.1) a l ≤ r.1 := by
  induction l with
  | nil => intro a r hr; cases hr
  | cons q rest ih =>
    intro a r hr
    rcases List.mem_cons.mp hr with h | h
    · subst h
      exact le_trans (foldl_min_le rest (min a r.1)) (min_le_right a r.1)
    · exact ih (min a q.1) r h

theorem foldl_max_ge (l : List (ℕ × ℕ)) :
    ∀ a, a ≤ List.foldl (fun x r => max x r.2) a l := by
  induction l with
  | nil => intro a; exact le_refl a
  | cons r rest ih =>
    intro a
    exact le_trans (le_max_left a r.2) (ih (max a r.2))

theorem foldl_max_ge_mem (l : List (ℕ × ℕ)) :
    ∀ a r, r ∈ l → r.2 ≤ List.foldl (fun x q => max x q.2) a l := by
  induction l with
  | nil => intro a r hr; cases hr
  | cons q rest ih =>
    intro a r hr
    rcases List.mem_cons.mp hr with h | h
    · subst h
      exact le_trans (le_max_right a r.2) (foldl_max_ge rest (max a r.2))
    · exact ih (max a q.2) r h

theorem regionsHas_add_self (rs : List (ℕ × ℕ)) (s e : ℕ) :
    regionsHas (regionsAdd rs s e) s e = true := by
  have h1 := foldl_min_le (rs.filter fun r => r.1 ≤ e && s ≤ r.2) s
  have h2 := foldl_max_ge (rs.filter fun r => r.1 ≤ e && s ≤ r.2) e
  simp only [regionsAdd, regionsHas, List.any_cons, Bool.or_eq_true, Bool.and_eq_true,
    decide_eq_true_eq]
  exact Or.inl ⟨h1, h2⟩

theorem regionsHas_add_mono (rs : List (ℕ × ℕ)) (a b s e : ℕ)
    (h : regionsHas rs a b = true) :
    regionsHas (regionsAdd rs s e) a b = true := by
  simp only [regionsHas, List.any_eq_true, Bool.and_eq_true, decide_eq_true_eq] at h
  obtain ⟨r, hr, hc1, hc2⟩ := h
  by_cases ht : r.1 ≤ e ∧ s ≤ r.2
  · have hm : r ∈ rs.filter (fun q => q.1 ≤ e && s ≤ q.2) := by
      simp [List.mem_filter, hr, ht.1, ht.2]
    have h1 := foldl_min_le_mem (rs.filter fun q => q.1 ≤ e && s ≤ q.2) s r hm
    have h2 := foldl_max_ge_mem (rs.filter fun q => q.1 ≤ e && s ≤ q.2) e r hm
    simp only [regionsAdd, regionsHas, List.any_cons, Bool.or_eq_true, Bool.and_eq_true,
      decide_eq_true_eq]
    exact Or.inl ⟨le_trans h1 hc1, le_trans hc2 h2⟩
  · have hm : r ∈ rs.filter (fun q => !(q.1 ≤ e && s ≤ q.2)) := by
      simp only [List.mem_filter, hr, true_and, Bool.not_eq_eq_eq_not, Bool.not_true,
        Bool.and_eq_false_iff]
      simp only [not_and_or] at ht
      rcases ht with ht | ht
      · exact Or.inl (by simpa using ht)
      · exact Or.inr (by simpa using ht)
    simp only [regionsAdd, regionsHas, List.any_cons, Bool.or_eq_true]
    refine Or.inr ?_
    simp only [List.any_eq_true, Bool.and_eq_true, decide_eq_true_eq]
    exact ⟨r, hm, hc1, hc2⟩

/-- The exact float expansion of `highlightRegions` in integers:
`max(0, floor(s - 1.5 h))` is the truncated subtraction of `ceil(3h/2)`
and the upper end is the triple minimum. -/
theorem expandSpan_eq (lc hvp s e : ℕ) :
    expandSpan lc hvp (s, e)
      = (s - (3 * hvp + 1) / 2,
         min lc (min (e + (3 * hvp + 1) / 2) (s + 2 * hvp))) := by
  obtain ⟨k, hk1, hk2, hk3⟩ :
      ∃ k : ℕ, 3 * hvp ≤ 2 * k ∧ 2 * k ≤ 3 * hvp + 1 ∧ k = (3 * hvp + 1) / 2 :=
    ⟨(3 * hvp + 1) / 2, by omega, by omega, rfl⟩
  have hq1 : (3 : ℚ) * hvp ≤ 2 * k := by exact_mod_cast hk1
  have hq2 : (2 : ℚ) * k ≤ 3 * hvp + 1 := by exact_mod_cast hk2
  have hfloor : ⌊(s : ℚ) - hvp * ((3 : ℚ) / 2)⌋ = (s : ℤ) - (k : ℤ) := by
    rw [Int.floor_eq_iff]
    constructor
    · push_cast
      linarith
    · push_cast
      linarith
  have hceil : ⌈(e : ℚ) + hvp * ((3 : ℚ) / 2)⌉ = (e : ℤ) + (k : ℤ) := by
    rw [Int.ceil_eq_iff]
    constructor
    · push_cast
      linarith
    · push_cast
      linarith
  simp only [expandSpan, hfloor, hceil]
  rw [Prod.mk.injEq]
  constructor <;> omega

/-- Two overlapping spans merge into one. -/
theorem mergeSpans_pair (s1 e1 s2 e2 : ℕ) (h1 : s1 ≤ s2) (h2 : s2 ≤ e1) (h3 : s2 ≤ e2) :
    mergeSpans [(s1, e1), (s2, e2)] = [(min s2 s1, max e2 e1)] := by
  have hs1e2 : s1 ≤ e2 := le_trans h1 h3
  simp only [mergeSpans, List.foldl]
  have hbase : regionsAdd [] s1 e1 = [(s1, e1)] := rfl
  rw [hbase]
  simp [regionsAdd, List.filter, hs1e2, h2]

/-- The loop of `highlightRegions` marks every span it reaches as painted
and never loses coverage, provided the token is never cancelled. -/
theorem highlightRegionsGo_marks (env : PassEnv) (c : ℕ → Bool) (sk : Bool)
    (hC : ∀ τ, c τ = false) :
    ∀ spans (s : EngineState) (t : ℕ),
      (∀ p ∈ spans,
        regionsHas (highlightRegionsGo env c sk spans s t).1.regions p.1 p.2 = true) ∧
      (∀ a b, regionsHas s.regions a b = true →
        regionsHas (highlightRegionsGo env c sk spans s t).1.regions a b = true) := by
  intro spans
  induction spans with
  | nil =>
    intro s t
    exact ⟨fun p hp => absurd hp (List.not_mem_nil p), fun a b h => h⟩
  | cons q rest ih =>
    intro s t
    obtain ⟨start, stop⟩ := q
    by_cases hskip : (!sk && regionsHas s.regions start stop) = true
    · rw [highlightRegionsGo]
      simp only [hskip, if_true]
      have hmem : regionsHas s.regions start stop = true := by
        have := hskip
        simp only [Bool.and_eq_true] at this
        exact this.2
      refine ⟨?_, (ih s t).2⟩
      intro p hp
      rcases List.mem_cons.mp hp with h | h
      · rw [h]
        exact (ih s t).2 start stop hmem
      · exact (ih s t).1 p h
    · rw [highlightRegionsGo]
      simp only [hskip, Bool.false_eq_true, if_false, hC (t + 1)]
      constructor
      · intro p hp
        rcases List.mem_cons.mp hp with h | h
        · rw [h]
          exact (ih _ (t + 1)).2 start stop (regionsHas_add_self s.regions start stop)
        · exact (ih _ (t + 1)).1 p h
      · intro a b hab
        exact (ih _ (t + 1)).2 a b (regionsHas_add_mono s.regions a b start stop hab)

/-- The loop of `highlightRegions` never diffs a span that was already
painted when the loop started. -/
theorem highlightRegionsGo_skips (env : PassEnv) (c : ℕ → Bool)
    (hC : ∀ τ, c τ = false) :
    ∀ spans (s : EngineState) (t a b : ℕ), regionsHas s.regions a b = true →
      Action.diffRegion a b ∉ (highlightRegionsGo env c false spans s t).2.2 := by
  intro spans
  induction spans with
  | nil =>
    intro s t a b _ hmem
    cases hmem
  | cons q rest ih =>
    intro s t a b hab
    obtain ⟨start, stop⟩ := q
    by_cases hskip : regionsHas s.regions start stop = true
    · rw [highlightRegionsGo]
      simp only [Bool.not_false, hskip, Bool.and_self, if_true, Bool.true_and]
      exact ih s t a b hab
    · rw [highlightRegionsGo]
      simp only [Bool.not_false, Bool.true_and, hskip, Bool.false_eq_true, if_false,
        hC (t + 1)]
      intro hmem
      have hne : ¬(start = a ∧ stop = b) := by
        rintro ⟨rfl, rfl⟩
        exact hskip hab
      rcases List.mem_cons.mp hmem with h | h
      · exact hne (by injection h with h1 h2; exact ⟨h1.symm, h2.symm⟩)
      · rcases hd : env.diffResult (t + 1) with _ | _
        · rw [hd] at h
          simp only [Bool.false_eq_true, if_false] at h
          exact ih _ (t + 1) a b (regionsHas_add_mono s.regions a b start stop hab) h
        · rw [hd] at h
          simp only [if_true] at h
          rcases List.mem_cons.mp h with h2 | h2
          · exact absurd h2 (by simp)
          · exact ih _ (t + 1) a b (regionsHas_add_mono s.regions a b start stop hab) h2

/-- A base pass environment for concrete runs: full provider only, no
errors, never cancelled, every diff succeeds. -/
def exEnvBase : PassEnv :=
  { configEnabled := true, updateHighlight := true, hasLegend := true,
    hasFullProvider := true, hasRangeProvider := false, hasEditProvider := false,
    hidden := false, lines := 2,
    legend := ⟨["t"], []⟩, rangeLegend := ⟨[], []⟩,
    getline := fun _ => "", highlightGroups := [], combinedModifiers := [],
    incrementTypes := [],
    cancelled := fun _ => false, rangeCancelled := fun _ => false,
    yieldAt := fun _ => false,
    fullResponse := .ok (some ⟨some "r", [0, 0, 1, 0, 0]⟩),
    editsResponse := .ok none, rangeResponse := .ok none,
    visibleRange := none, visibleRanges := [(0, 1)],
    diffResult := fun _ => true }

/-- **C7**: `highlightRegions` expands a visible span `[s, e)` to
`[max(0, floor(s - 1.5 h)), min(lineCount, ceil(e + 1.5 h), s + 2 h))`
(stated via the integer closed form `ceil(3h/2) = (3h+1)/2`), the spec's
viewport `[10, 20)` with height 20 expands to `[0, 50)` when the document
has at least 50 lines, two overlapping expanded spans merge into a single
repaint span, and in the loop a merged span already recorded as painted is
never diffed again while every merged span ends up recorded as painted. -/
theorem c7_region_expansion (lc hvp s e s1 e1 s2 e2 : ℕ) (env : PassEnv)
    (st : EngineState) (t : ℕ) (hC : ∀ τ, env.cancelled τ = false) :
    (expandSpan lc hvp (s, e)
      = (s - (3 * hvp + 1) / 2,
         min lc (min (e + (3 * hvp + 1) / 2) (s + 2 * hvp)))) ∧
    (50 ≤ lc → expandSpan lc 20 (10, 20) = (0, 50)) ∧
    (s1 ≤ s2 → s2 ≤ e1 → s2 ≤ e2 →
      mergeSpans [(s1, e1), (s2, e2)] = [(min s2 s1, max e2 e1)]) ∧
    (∀ p ∈ mergeSpans (env.visibleRanges.map (expandSpan st.lineCount env.lines)),
      regionsHas st.regions p.1 p.2 = true →
        Action.diffRegion p.1 p.2 ∉ (highlightRegions env env.cancelled st t false).2.2) ∧
    (currentHighlights st ≠ none → env.visibleRanges ≠ [] →
      ∀ p ∈ mergeSpans (env.visibleRanges.map (expandSpan st.lineCount env.lines)),
        regionsHas (highlightRegions env env.cancelled st t false).1.regions p.1 p.2
          = true) := by
  refine ⟨expandSpan_eq lc hvp s e, ?_, mergeSpans_pair s1 e1 s2 e2, ?_, ?_⟩
  · intro hlc
    rw [expandSpan_eq, Prod.mk.injEq]
    constructor <;> omega
  · intro p hp hpainted
    rw [highlightRegions]
    rcases hch : currentHighlights st with _ | hs
    · simp
    · simp only [hC (t + 1), Bool.false_or]
      rcases hemp : env.visibleRanges.isEmpty with _ | _
      · simp only [hemp, Bool.false_eq_true, if_false]
        exact highlightRegionsGo_skips env env.cancelled hC _ st (t + 1) p.1 p.2 hpainted
      · simp only [hemp, if_true]
        simp
  · intro hne hnev p hp
    rw [highlightRegions]
    rcases hch : currentHighlights st with _ | hs
    · exact absurd hch hne
    · simp only [hC (t + 1), Bool.false_or]
      have hemp : env.visibleRanges.isEmpty = false := by
        simpa [List.isEmpty_iff] using hnev
      simp only [hemp, Bool.false_eq_true, if_false]
      exact (highlightRegionsGo_marks env env.cancelled false hC _ st (t + 1)).1 p hp

/-- Witness for C7: the scenario conjuncts at concrete inputs. -/
theorem c7_region_expansion_witness :
    (expandSpan 60 20 (10, 20) = (0, 50)) ∧
    (mergeSpans [(0, 50), (40, 90)] = [(min 40 0, max 90 50)]) :=
  ⟨(c7_region_expansion 60 20 10 20 0 50 40 90 exEnvBase exStateC10 0
      (fun τ => rfl)).2.1 (by norm_num),
   (c7_region_expansion 60 20 10 20 0 50 40 90 exEnvBase exStateC10 0
      (fun τ => rfl)).2.2.1 (by norm_num) (by norm_num) (by norm_num)⟩

/-! ## Frame and action-shape lemmas for the pass phases -/

/-- The fields no phase after the start of a pass mutates: the handle
bookkeeping and the document data. -/
def framePreserved (s r : EngineState) : Prop :=
  r.tokenSource = s.tokenSource ∧ r.rangeTokenSource = s.rangeTokenSource ∧
  r.cancelledHandles = s.cancelledHandles ∧ r.nextHandle = s.nextHandle ∧
  r.docVersion = s.docVersion ∧ r.docDirty = s.docDirty ∧ r.lineCount = s.lineCount

theorem framePreserved_refl (s : EngineState) : framePreserved s s :=
  ⟨rfl, rfl, rfl, rfl, rfl, rfl, rfl⟩

theorem framePreserved_trans {a b c : EngineState}
    (h1 : framePreserved a b) (h2 : framePreserved b c) : framePreserved a c := by
  obtain ⟨x1, x2, x3, x4, x5, x6, x7⟩ := h1
  obtain ⟨y1, y2, y3, y4, y5, y6, y7⟩ := h2
  exact ⟨y1.trans x1, y2.trans x2, y3.trans x3, y4.trans x4,
         y5.trans x5, y6.trans x6, y7.trans x7⟩

theorem highlightRegionsGo_frame (env : PassEnv) (c : ℕ → Bool) (sk : Bool) :
    ∀ spans (s : EngineState) (t : ℕ),
      framePreserved s (highlightRegionsGo env c sk spans s t).1 ∧
      (highlightRegionsGo env c sk spans s t).1.previousResults = s.previousResults ∧
      (highlightRegionsGo env c sk spans s t).1.highlights = s.highlights ∧
      (highlightRegionsGo env c sk spans s t).1.dirty = s.dirty ∧
      (highlightRegionsGo env c sk spans s t).1.hlVersion = s.hlVersion ∧
      (highlightRegionsGo env c sk spans s t).1.pendingHighlight = s.pendingHighlight := by
  intro spans
  induction spans with
  | nil =>
    intro s t
    exact ⟨framePreserved_refl s, rfl, rfl, rfl, rfl, rfl⟩
  | cons q rest ih =>
    intro s t
    obtain ⟨start, stop⟩ := q
    rw [highlightRegionsGo]
    by_cases hskip : (!sk && regionsHas s.regions start stop) = true
    · rw [if_pos hskip]
      exact ih s t
    · rw [if_neg hskip]
      by_cases hc : c (t + 1) = true
      · simp [hc, framePreserved]
      · simp only [hc, Bool.false_eq_true, if_false]
        have := ih { s with regions := regionsAdd s.regions start stop } (t + 1)
        exact this

theorem highlightRegions_frame (env : PassEnv) (c : ℕ → Bool) (s : EngineState)
    (t : ℕ) (sk : Bool) :
    framePreserved s (highlightRegions env c s t sk).1 ∧
    (highlightRegions env c s t sk).1.previousResults = s.previousResults ∧
    (highlightRegions env c s t sk).1.highlights = s.highlights ∧
    (highlightRegions env c s t sk).1.dirty = s.dirty ∧
    (highlightRegions env c s t sk).1.hlVersion = s.hlVersion ∧
    (highlightRegions env c s t sk).1.pendingHighlight = s.pendingHighlight := by
  simp only [highlightRegions]
  split
  · exact ⟨framePreserved_refl s, rfl, rfl, rfl, rfl, rfl⟩
  · split
    · exact ⟨framePreserved_refl s, rfl, rfl, rfl, rfl, rfl⟩
    · exact highlightRegionsGo_frame env c sk _ s _

theorem highlightRegionsGo_acts (env : PassEnv) (c : ℕ → Bool) (sk : Bool) :
    ∀ spans (s : EngineState) (t : ℕ),
      ∀ a ∈ (highlightRegionsGo env c sk spans s t).2.2,
        (∃ p q, a = Action.diffRegion p q) ∨ (∃ p q, a = Action.applyRegion p q) := by
  intro spans
  induction spans with
  | nil =>
    intro s t a ha
    cases ha
  | cons q rest ih =>
    intro s t a ha
    obtain ⟨start, stop⟩ := q
    rw [highlightRegionsGo] at ha
    by_cases hskip : (!sk && regionsHas s.regions start stop) = true
    · rw [if_pos hskip] at ha
      exact ih s t a ha
    · rw [if_neg hskip] at ha
      by_cases hc : c (t + 1) = true
      · simp only [hc, if_true] at ha
        rcases List.mem_cons.mp ha with h | h
        · exact Or.inl ⟨start, stop, h⟩
        · cases h
      · simp only [hc, Bool.false_eq_true, if_false] at ha
        rcases List.mem_cons.mp ha with h | h
        · exact Or.inl ⟨start, stop, h⟩
        · by_cases hd : env.diffResult (t + 1) = true
          · rw [if_pos hd] at h
            rcases List.mem_cons.mp h with h2 | h2
            · exact Or.inr ⟨start, stop, h2⟩
            · exact ih _ _ a h2
          · rw [if_neg hd] at h
            exact ih _ _ a h

theorem highlightRegions_acts (env : PassEnv) (c : ℕ → Bool) (s : EngineState)
    (t : ℕ) (sk : Bool) :
    ∀ a ∈ (highlightRegions env c s t sk).2.2,
      (∃ p q, a = Action.diffRegion p q) ∨ (∃ p q, a = Action.applyRegion p q) := by
  intro a ha
  simp only [highlightRegions] at ha
  split at ha
  · cases ha
  · split at ha
    · cases ha
    · exact highlightRegionsGo_acts env c sk _ _ _ a ha

/-- The provider request that `requestAllHighlights` issues, as decided by
the source lines 469-477. -/
def requestKind (env : PassEnv) (s : EngineState) (forceFull : Bool) : List Action :=
  match env.hasEditProvider, (if forceFull then none else s.previousResults) with
  | true, some pr =>
    match pr.resultId with
    | some rid => [Action.requestDelta rid]
    | none => [Action.requestFull]
  | _, _ => [Action.requestFull]

theorem requestKind_shape (env : PassEnv) (s : EngineState) (ff : Bool) :
    ∃ x, requestKind env s ff = [x] ∧ isRequest x = true := by
  rw [requestKind]
  split
  · split
    · exact ⟨_, rfl, rfl⟩
    · exact ⟨_, rfl, rfl⟩
  · exact ⟨_, rfl, rfl⟩

theorem requestKind_filter (env : PassEnv) (s : EngineState) (ff : Bool) :
    (requestKind env s ff).filter isRequest = requestKind env s ff := by
  obtain ⟨x, hx, hi⟩ := requestKind_shape env s ff
  rw [hx]
  simp [hi]

theorem requestFullPath_acts (env : PassEnv) (s : EngineState) (t : ℕ) :
    (requestFullPath env s t).2.2.2 = [Action.requestFull] := by
  rcases hfr : env.fullResponse with e | v
  · simp [requestFullPath, hfr]
  · rcases v with _ | m
    · simp [requestFullPath, hfr]
    · by_cases hc : env.cancelled (t + 1) = true <;> simp [requestFullPath, hfr, hc]

theorem requestAllHighlights_acts (env : PassEnv) (s : EngineState) (ff : Bool) (t : ℕ) :
    (requestAllHighlights env s ff t).2.2.2 = requestKind env s ff := by
  rw [requestAllHighlights, requestKind]
  cases he : env.hasEditProvider
  · exact requestFullPath_acts env s t
  · rcases hp : (if ff then none else s.previousResults) with _ | pr
    · exact requestFullPath_acts env s t
    · rcases hr : pr.resultId with _ | rid
      · simp only [hr]
        exact requestFullPath_acts env s t
      · simp only [hr]
        rcases hes : env.editsResponse with e | v
        · simp [hes]
        · rcases v with _ | result
          · simp [hes]
          · by_cases hc : env.cancelled (t + 1) = true <;> simp [hes, hc]

theorem sendRequest_acts {α : Type} (r : Except ProviderError (Option α)) (c : Bool) :
    (sendRequest r c).2.2 = [] ∨ (sendRequest r c).2.2 = [Action.logError] := by
  rcases r with e | v
  · cases e <;> cases c <;> simp [sendRequest]
  · simp [sendRequest]

theorem requestPhase_acts_eq (env : PassEnv) (s : EngineState) (ff : Bool) (t : ℕ) :
    (requestPhase env s ff t).2.2.2
      = (requestAllHighlights env s ff t).2.2.2
        ++ (sendRequest (requestAllHighlights env s ff t).1
            (env.cancelled (requestAllHighlights env s ff t).2.2.1)).2.2 := by
  rw [requestPhase]
  rcases hw : (sendRequest (requestAllHighlights env s ff t).1
      (env.cancelled (requestAllHighlights env s ff t).2.2.1)).2.1 with _ | d
  · rcases hr : (sendRequest (requestAllHighlights env s ff t).1
        (env.cancelled (requestAllHighlights env s ff t).2.2.1)).1 with _ | hs <;>
      simp [hw, hr]
  · rcases hr : (sendRequest (requestAllHighlights env s ff t).1
        (env.cancelled (requestAllHighlights env s ff t).2.2.1)).1 with _ | hs <;>
      simp [hw, hr]

theorem requestPhase_requests (env : PassEnv) (s : EngineState) (ff : Bool) (t : ℕ) :
    (requestPhase env s ff t).2.2.2.filter isRequest = requestKind env s ff := by
  rw [requestPhase_acts_eq, List.filter_append, requestAllHighlights_acts, requestKind_filter]
  rcases sendRequest_acts (requestAllHighlights env s ff t).1
      (env.cancelled (requestAllHighlights env s ff t).2.2.1) with h | h <;>
    simp [h, isRequest]

theorem requestPhase_acts (env : PassEnv) (s : EngineState) (ff : Bool) (t : ℕ) :
    ∀ a ∈ (requestPhase env s ff t).2.2.2, isRequest a = true ∨ a = Action.logError := by
  intro a ha
  rw [requestPhase_acts_eq] at ha
  rcases List.mem_append.mp ha with h | h
  · rw [requestAllHighlights_acts] at h
    obtain ⟨x, hx, hi⟩ := requestKind_shape env s ff
    rw [hx] at h
    rcases List.mem_cons.mp h with h2 | h2
    · exact Or.inl (h2 ▸ hi)
    · cases h2
  · rcases sendRequest_acts (requestAllHighlights env s ff t).1
        (env.cancelled (requestAllHighlights env s ff t).2.2.1) with hw | hw <;> rw [hw] at h
    · cases h
    · rcases List.mem_cons.mp h with h2 | h2
      · exact Or.inr h2
      · cases h2

theorem decodePhase_acts (env : PassEnv) (s : EngineState) (ff : Bool) (t : ℕ) :
    ∀ a ∈ (decodePhase env s ff t).2.2.2, isRequest a = true ∨ a = Action.logError := by
  intro a ha
  rw [decodePhase] at ha
  rcases hp : s.previousResults with _ | pr
  · rw [hp] at ha
    exact requestPhase_acts env s ff t a ha
  · rw [hp] at ha
    dsimp only at ha
    by_cases hv : s.docVersion = pr.version
    · rw [if_pos hv] at ha
      rcases hh : s.highlights with _ | vh
      · rw [hh] at ha
        dsimp only at ha
        rcases hq : (getTokenRanges (decodeCtx env) env.yieldAt env.cancelled pr.tokens t).1
            with _ | hs <;> rw [hq] at ha <;> cases ha
      · obtain ⟨v, hs⟩ := vh
        rw [hh] at ha
        dsimp only at ha
        by_cases hvv : v = s.docVersion
        · rw [if_pos hvv] at ha
          cases ha
        · rw [if_neg hvv] at ha
          rcases hq : (getTokenRanges (decodeCtx env) env.yieldAt env.cancelled pr.tokens t).1
              with _ | hs2 <;> rw [hq] at ha <;> cases ha
    · rw [if_neg hv] at ha
      exact requestPhase_acts env s ff t a ha

theorem decodePhase_requests (env : PassEnv) (s : EngineState) (ff : Bool) (t : ℕ) :
    (decodePhase env s ff t).2.2.2.filter isRequest
      = (match s.previousResults with
         | some pr => if s.docVersion = pr.version then [] else requestKind env s ff
         | none => requestKind env s ff) := by
  rw [decodePhase]
  rcases hp : s.previousResults with _ | pr
  · exact requestPhase_requests env s ff t
  · dsimp only
    by_cases hv : s.docVersion = pr.version
    · rw [if_pos hv, if_pos hv]
      rcases hh : s.highlights with _ | vh
      · rcases hq : (getTokenRanges (decodeCtx env) env.yieldAt env.cancelled pr.tokens t).1
            with _ | hs <;> simp [hq]
      · obtain ⟨v, hs⟩ := vh
        dsimp only
        by_cases hvv : v = s.docVersion
        · rw [if_pos hvv]
          rfl
        · rw [if_neg hvv]
          rcases hq : (getTokenRanges (decodeCtx env) env.yieldAt env.cancelled pr.tokens t).1
              with _ | hs2 <;> simp [hq]
    · rw [if_neg hv, if_neg hv]
      exact requestPhase_requests env s ff t

theorem requestPhase_frame (env : PassEnv) (s : EngineState) (ff : Bool) (t : ℕ) :
    framePreserved s (requestPhase env s ff t).2.1 ∧
    (requestPhase env s ff t).2.1.regions = s.regions ∧
    (requestPhase env s ff t).2.1.dirty = s.dirty ∧
    (requestPhase env s ff t).2.1.hlVersion = s.hlVersion := by
  rw [requestPhase]
  rcases hw : (sendRequest (requestAllHighlights env s ff t).1
      (env.cancelled (requestAllHighlights env s ff t).2.2.1)).2.1 with _ | d <;>
    rcases hr : (sendRequest (requestAllHighlights env s ff t).1
        (env.cancelled (requestAllHighlights env s ff t).2.2.1)).1 with _ | hs <;>
      simp [hw, hr, framePreserved]

theorem decodePhase_frame (env : PassEnv) (s : EngineState) (ff : Bool) (t : ℕ) :
    framePreserved s (decodePhase env s ff t).2.1 ∧
    (decodePhase env s ff t).2.1.regions = s.regions ∧
    (decodePhase env s ff t).2.1.dirty = s.dirty ∧
    (decodePhase env s ff t).2.1.hlVersion = s.hlVersion := by
  rw [decodePhase]
  rcases hp : s.previousResults with _ | pr
  · exact requestPhase_frame env s ff t
  · dsimp only
    by_cases hv : s.docVersion = pr.version
    · rw [if_pos hv]
      rcases hh : s.highlights with _ | vh
      · rcases hq : (getTokenRanges (decodeCtx env) env.yieldAt env.cancelled pr.tokens t).1
            with _ | hs <;>
          simp [hq, framePreserved]
      · obtain ⟨v, hs⟩ := vh
        dsimp only
        by_cases hvv : v = s.docVersion
        · rw [if_pos hvv]
          exact ⟨framePreserved_refl s, rfl, rfl, rfl⟩
        · rw [if_neg hvv]
          rcases hq : (getTokenRanges (decodeCtx env) env.yieldAt env.cancelled pr.tokens t).1
              with _ | hs2 <;>
            simp [hq, framePreserved]
    · rw [if_neg hv]
      exact requestPhase_frame env s ff t


theorem requestRangeHighlights_acts (env : PassEnv) (c : ℕ → Bool) (t : ℕ) :
    (requestRangeHighlights env c t).2.2 = [] ∨
    (requestRangeHighlights env c t).2.2 = [Action.requestRange] := by
  rw [requestRangeHighlights]
  repeat' first
  | (left; rfl)
  | (right; rfl)
  | split
  | (dsimp only)

theorem doRangeHighlight_frame (env : PassEnv) (c : ℕ → Bool) (s : EngineState) (t : ℕ) :
    framePreserved s (doRangeHighlight env c s t).1 ∧
    (doRangeHighlight env c s t).1.previousResults = s.previousResults ∧
    (doRangeHighlight env c s t).1.regions = s.regions ∧
    (doRangeHighlight env c s t).1.hlVersion = s.hlVersion := by
  rw [doRangeHighlight]
  split
  · exact ⟨framePreserved_refl s, rfl, rfl, rfl⟩
  · dsimp only
    repeat' first
    | split
    | (dsimp only)
    all_goals simp [framePreserved]

theorem doRangeHighlight_acts (env : PassEnv) (c : ℕ → Bool) (s : EngineState) (t : ℕ) :
    ∀ a ∈ (doRangeHighlight env c s t).2.2,
      a = Action.requestRange ∨ a = Action.logError ∨
      (∃ p q, a = Action.diffRegion p q) ∨ (∃ p q, a = Action.applyRegion p q) := by
  have hmm : ∀ a, a ∈ (requestRangeHighlights env c t).2.2
        ++ (sendRequest (requestRangeHighlights env c t).1
            (c (requestRangeHighlights env c t).2.1)).2.2 →
      a = Action.requestRange ∨ a = Action.logError := by
    intro a ha
    rcases List.mem_append.mp ha with h | h
    · rcases requestRangeHighlights_acts env c t with hq | hq <;> rw [hq] at h
      · cases h
      · rcases List.mem_cons.mp h with h2 | h2
        · exact Or.inl h2
        · cases h2
    · rcases sendRequest_acts (requestRangeHighlights env c t).1
          (c (requestRangeHighlights env c t).2.1) with hw | hw <;> rw [hw] at h
      · cases h
      · rcases List.mem_cons.mp h with h2 | h2
        · exact Or.inr h2
        · cases h2
  intro a ha
  simp only [doRangeHighlight] at ha
  split at ha
  · cases ha
  · repeat' split at ha
    all_goals (
      first
      | exact (hmm a ha).imp id Or.inl
      | (rcases List.mem_append.mp ha with h | h
         · exact (hmm a h).imp id Or.inl
         · first
           | (rcases List.mem_cons.mp h with h2 | h2
              · exact Or.inr (Or.inr (Or.inl ⟨_, _, h2⟩))
              · rcases List.mem_cons.mp h2 with h3 | h3
                · exact Or.inr (Or.inr (Or.inr ⟨_, _, h3⟩))
                · cases h3)
           | (rcases List.mem_cons.mp h with h2 | h2
              · exact Or.inr (Or.inr (Or.inl ⟨_, _, h2⟩))
              · cases h2)))

theorem applyStage_frame (env : PassEnv) (s : EngineState) (version : ℕ)
    (tokenRanges : List SemanticTokenRange) (t : ℕ) :
    framePreserved s (applyStage env s version tokenRanges t).1 ∧
    (applyStage env s version tokenRanges t).1.previousResults = s.previousResults ∧
    (applyStage env s version tokenRanges t).1.highlights = s.highlights ∧
    (applyStage env s version tokenRanges t).1.pendingHighlight = s.pendingHighlight := by
  rw [applyStage]
  split
  · dsimp only
    split
    · exact ⟨framePreserved_refl s, rfl, rfl, rfl⟩
    · exact ⟨⟨rfl, rfl, rfl, rfl, rfl, rfl, rfl⟩, rfl, rfl, rfl⟩
  · have h1 := highlightRegions_frame env env.cancelled { s with regions := [] } t false
    obtain ⟨⟨f1, f2, f3, f4, f5, f6, f7⟩, g1, g2, g3, g4, g5⟩ := h1
    exact ⟨⟨f1, f2, f3, f4, f5, f6, f7⟩, g1, g2, g5⟩

theorem applyStage_whole_acts (env : PassEnv) (s : EngineState) (version : ℕ)
    (tokenRanges : List SemanticTokenRange) (t : ℕ)
    (h : (!s.dirty || decide (tokenRanges.length < 200)) = true) :
    (applyStage env s version tokenRanges t).2.2.1 = [Action.diffFull] ∨
    (applyStage env s version tokenRanges t).2.2.1 = [Action.diffFull, Action.applyFull] := by
  rw [applyStage, if_pos h]
  dsimp only
  split
  · left; rfl
  · right; rfl

theorem applyStage_regions_acts (env : PassEnv) (s : EngineState) (version : ℕ)
    (tokenRanges : List SemanticTokenRange) (t : ℕ)
    (h : ¬(!s.dirty || decide (tokenRanges.length < 200)) = true) :
    (applyStage env s version tokenRanges t).2.2.1
      = Action.clearRegions
        :: (highlightRegions env env.cancelled { s with regions := [] } t false).2.2 ∧
    (applyStage env s version tokenRanges t).1
      = (highlightRegions env env.cancelled { s with regions := [] } t false).1 := by
  rw [applyStage, if_neg h]
  exact ⟨rfl, rfl⟩

/-- The state a pass works on after its initial full-class cancel and the
allocation of a fresh full token source. -/
def passState (s : EngineState) : EngineState :=
  let s1 := cancel s false
  { s1 with tokenSource := some s1.nextHandle, nextHandle := s1.nextHandle + 1 }

/-- A non-hidden, initially uncancelled `doHighlight` pass with no range
prelude is the decode step followed by the apply step. -/
theorem doHighlight_run (env : PassEnv) (s : EngineState) (ff : Bool)
    (hen : enabled env = true) (hh : env.hidden = false) (hc1 : env.cancelled 1 = false)
    (hnr : env.hasRangeProvider = false) :
    doHighlight env s ff false
      = (match (decodePhase env (passState s) ff 1).1 with
         | none => ((decodePhase env (passState s) ff 1).2.1,
             Action.evalHidden :: (decodePhase env (passState s) ff 1).2.2.2)
         | some tokenRanges =>
           if env.cancelled (decodePhase env (passState s) ff 1).2.2.1 then
             ((decodePhase env (passState s) ff 1).2.1,
               Action.evalHidden :: (decodePhase env (passState s) ff 1).2.2.2)
           else
             if (applyStage env (decodePhase env (passState s) ff 1).2.1
                 (passState s).docVersion tokenRanges
                 (decodePhase env (passState s) ff 1).2.2.1).2.2.2 then
               ((applyStage env (decodePhase env (passState s) ff 1).2.1
                   (passState s).docVersion tokenRanges
                   (decodePhase env (passState s) ff 1).2.2.1).1,
                 Action.evalHidden :: (decodePhase env (passState s) ff 1).2.2.2
                   ++ (applyStage env (decodePhase env (passState s) ff 1).2.1
                       (passState s).docVersion tokenRanges
                       (decodePhase env (passState s) ff 1).2.2.1).2.2.1
                   ++ [Action.fireRefresh])
             else
               ((applyStage env (decodePhase env (passState s) ff 1).2.1
                   (passState s).docVersion tokenRanges
                   (decodePhase env (passState s) ff 1).2.2.1).1,
                 Action.evalHidden :: (decodePhase env (passState s) ff 1).2.2.2
                   ++ (applyStage env (decodePhase env (passState s) ff 1).2.1
                       (passState s).docVersion tokenRanges
                       (decodePhase env (passState s) ff 1).2.2.1).2.2.1)) := by
  rw [doHighlight]
  have hne : (!enabled env) = false := by rw [hen]; rfl
  simp only [hne, Bool.false_eq_true, if_false, Bool.not_false, if_true, hh, hc1,
    Bool.or_self, shouldRangeHighlight, hnr, Bool.false_and, passState,
    List.append_nil, List.nil_append, List.singleton_append, List.append_assoc]



/-! ## C6: the apply-strategy decision -/

theorem isRequest_ne_strategy (a : Action) (h : isRequest a = true) :
    a ≠ Action.diffFull ∧ a ≠ Action.clearRegions := by
  cases a <;> simp_all [isRequest]

theorem decodePhase_no_strategy (env : PassEnv) (s : EngineState) (ff : Bool) (t : ℕ) :
    ∀ a ∈ (decodePhase env s ff t).2.2.2, a ≠ Action.diffFull ∧ a ≠ Action.clearRegions := by
  intro a ha
  rcases decodePhase_acts env s ff t a ha with h | h
  · exact isRequest_ne_strategy a h
  · subst h
    exact ⟨by simp, by simp⟩

theorem highlightRegions_no_strategy (env : PassEnv) (c : ℕ → Bool) (st : EngineState)
    (t : ℕ) (sk : Bool) :
    ∀ a ∈ (highlightRegions env c st t sk).2.2,
      a ≠ Action.diffFull ∧ a ≠ Action.clearRegions := by
  intro a ha
  rcases highlightRegions_acts env c st t sk a ha with ⟨p, q, h⟩ | ⟨p, q, h⟩ <;> subst h <;>
    exact ⟨by simp, by simp⟩

theorem applyStage_strategy_unique (env : PassEnv) (s : EngineState) (version : ℕ)
    (tokenRanges : List SemanticTokenRange) (t : ℕ) :
    ¬(Action.diffFull ∈ (applyStage env s version tokenRanges t).2.2.1 ∧
      Action.clearRegions ∈ (applyStage env s version tokenRanges t).2.2.1) := by
  rintro ⟨hdf, hcr⟩
  by_cases hb : (!s.dirty || decide (tokenRanges.length < 200)) = true
  · rcases applyStage_whole_acts env s version tokenRanges t hb with h | h <;> rw [h] at hcr <;>
      simp at hcr
  · obtain ⟨h, _⟩ := applyStage_regions_acts env s version tokenRanges t hb
    rw [h] at hdf
    rcases List.mem_cons.mp hdf with h2 | h2
    · cases h2
    · exact (highlightRegions_no_strategy env env.cancelled { s with regions := [] } t false
        Action.diffFull h2).1 rfl

theorem applyStage_no_requests (env : PassEnv) (s : EngineState) (version : ℕ)
    (tokenRanges : List SemanticTokenRange) (t : ℕ) :
    (applyStage env s version tokenRanges t).2.2.1.filter isRequest = [] := by
  by_cases hb : (!s.dirty || decide (tokenRanges.length < 200)) = true
  · rcases applyStage_whole_acts env s version tokenRanges t hb with h | h <;> rw [h] <;> rfl
  · obtain ⟨h, _⟩ := applyStage_regions_acts env s version tokenRanges t hb
    rw [h]
    rw [List.filter_cons_of_neg (by simp [isRequest])]
    rw [List.filter_eq_nil_iff]
    intro a ha
    rcases highlightRegions_acts env env.cancelled { s with regions := [] } t false a ha
      with ⟨p, q, h2⟩ | ⟨p, q, h2⟩ <;> subst h2 <;> simp [isRequest]

theorem applyStage_no_publish_filter (env : PassEnv) (s : EngineState) (version : ℕ)
    (tokenRanges : List SemanticTokenRange) (t : ℕ) :
    ∀ a ∈ (applyStage env s version tokenRanges t).2.2.1, isRequest a = false := by
  intro a ha
  by_cases hb : (!s.dirty || decide (tokenRanges.length < 200)) = true
  · rcases applyStage_whole_acts env s version tokenRanges t hb with h | h <;> rw [h] at ha
    · simp only [List.mem_singleton] at ha
      subst ha; rfl
    · simp only [List.mem_cons, List.not_mem_nil, or_false] at ha
      rcases ha with rfl | rfl <;> rfl
  · obtain ⟨h, _⟩ := applyStage_regions_acts env s version tokenRanges t hb
    rw [h] at ha
    rcases List.mem_cons.mp ha with h2 | h2
    · subst h2; rfl
    · rcases highlightRegions_acts env env.cancelled { s with regions := [] } t false a h2
        with ⟨p, q, h3⟩ | ⟨p, q, h3⟩ <;> subst h3 <;> rfl

/-- **C6**: after a non-stale decoded result is available, the
whole-document diff-and-apply path is taken iff the engine is not yet
dirty or the decoded span count is strictly below 200; otherwise the
painted-region record is cleared and the incremental `highlightRegions`
pass runs on it; the two strategies are mutually exclusive, both inside
the apply step and across a whole standard highlight pass. -/
theorem c6_apply_strategy (env : PassEnv) (s : EngineState) (version : ℕ)
    (tokenRanges : List SemanticTokenRange) (t : ℕ)
    (env2 : PassEnv) (s2 : EngineState) (ff : Bool) :
    ((Action.diffFull ∈ (applyStage env s version tokenRanges t).2.2.1)
        ↔ (s.dirty = false ∨ tokenRanges.length < 200)) ∧
    ((Action.clearRegions ∈ (applyStage env s version tokenRanges t).2.2.1)
        ↔ ¬(s.dirty = false ∨ tokenRanges.length < 200)) ∧
    (¬(s.dirty = false ∨ tokenRanges.length < 200) →
      (applyStage env s version tokenRanges t).2.2.1
        = Action.clearRegions
          :: (highlightRegions env env.cancelled { s with regions := [] } t false).2.2 ∧
      (applyStage env s version tokenRanges t).1
        = (highlightRegions env env.cancelled { s with regions := [] } t false).1) ∧
    (¬(Action.diffFull ∈ (applyStage env s version tokenRanges t).2.2.1 ∧
       Action.clearRegions ∈ (applyStage env s version tokenRanges t).2.2.1)) ∧
    (enabled env2 = true → env2.hidden = false → env2.cancelled 1 = false →
      env2.hasRangeProvider = false →
      ¬(Action.diffFull ∈ (doHighlight env2 s2 ff false).2 ∧
        Action.clearRegions ∈ (doHighlight env2 s2 ff false).2)) := by
  have hbp : (!s.dirty || decide (tokenRanges.length < 200)) = true
      ↔ (s.dirty = false ∨ tokenRanges.length < 200) := by
    simp [Bool.or_eq_true, Bool.not_eq_true']
  refine ⟨?_, ?_, ?_, applyStage_strategy_unique env s version tokenRanges t, ?_⟩
  · by_cases hb : (!s.dirty || decide (tokenRanges.length < 200)) = true
    · rcases applyStage_whole_acts env s version tokenRanges t hb with h | h <;> rw [h] <;>
        simp [hbp.mp hb]
    · obtain ⟨h, _⟩ := applyStage_regions_acts env s version tokenRanges t hb
      rw [h]
      constructor
      · intro hm
        rcases List.mem_cons.mp hm with h2 | h2
        · cases h2
        · exact absurd rfl (highlightRegions_no_strategy env env.cancelled
            { s with regions := [] } t false Action.diffFull h2).1
      · intro hp
        exact absurd (hbp.mpr hp) hb
  · by_cases hb : (!s.dirty || decide (tokenRanges.length < 200)) = true
    · rcases applyStage_whole_acts env s version tokenRanges t hb with h | h <;> rw [h] <;>
        simp [hbp.mp hb]
    · obtain ⟨h, _⟩ := applyStage_regions_acts env s version tokenRanges t hb
      rw [h]
      simp only [List.mem_cons, true_or, true_iff]
      intro hp
      exact hb (hbp.mpr hp)
  · intro hp
    exact applyStage_regions_acts env s version tokenRanges t (fun hb => hp (hbp.mp hb))
  · intro hen hh hc1 hnr
    rw [doHighlight_run env2 s2 ff hen hh hc1 hnr]
    rcases hd : (decodePhase env2 (passState s2) ff 1).1 with _ | tr
    · rintro ⟨hdf, _⟩
      rcases List.mem_cons.mp hdf with h2 | h2
      · cases h2
      · exact (decodePhase_no_strategy env2 (passState s2) ff 1 Action.diffFull h2).1 rfl
    · dsimp only
      by_cases hc : env2.cancelled (decodePhase env2 (passState s2) ff 1).2.2.1 = true
      · rw [if_pos hc]
        rintro ⟨hdf, _⟩
        rcases List.mem_cons.mp hdf with h2 | h2
        · cases h2
        · exact (decodePhase_no_strategy env2 (passState s2) ff 1 Action.diffFull h2).1 rfl
      · rw [if_neg hc]
        have hkey : ∀ l : List Action,
            Action.diffFull ∈ Action.evalHidden ::
                (decodePhase env2 (passState s2) ff 1).2.2.2
                ++ (applyStage env2 (decodePhase env2 (passState s2) ff 1).2.1
                    (passState s2).docVersion tr
                    (decodePhase env2 (passState s2) ff 1).2.2.1).2.2.1 ++ l →
            Action.clearRegions ∈ Action.evalHidden ::
                (decodePhase env2 (passState s2) ff 1).2.2.2
                ++ (applyStage env2 (decodePhase env2 (passState s2) ff 1).2.1
                    (passState s2).docVersion tr
                    (decodePhase env2 (passState s2) ff 1).2.2.1).2.2.1 ++ l →
            Action.diffFull ∉ l → Action.clearRegions ∉ l → False := by
          intro l hdf hcr hl1 hl2
          have hdf2 : Action.diffFull ∈ (applyStage env2
              (decodePhase env2 (passState s2) ff 1).2.1 (passState s2).docVersion tr
              (decodePhase env2 (passState s2) ff 1).2.2.1).2.2.1 := by
            rcases List.mem_cons.mp hdf with h2 | h2
            · cases h2
            · rcases List.mem_append.mp h2 with h3 | h3
              · rcases List.mem_append.mp h3 with h4 | h4
                · exact absurd rfl
                    (decodePhase_no_strategy env2 (passState s2) ff 1 Action.diffFull h4).1
                · exact h4
              · exact absurd h3 hl1
          have hcr2 : Action.clearRegions ∈ (applyStage env2
              (decodePhase env2 (passState s2) ff 1).2.1 (passState s2).docVersion tr
              (decodePhase env2 (passState s2) ff 1).2.2.1).2.2.1 := by
            rcases List.mem_cons.mp hcr with h2 | h2
            · cases h2
            · rcases List.mem_append.mp h2 with h3 | h3
              · rcases List.mem_append.mp h3 with h4 | h4
                · exact absurd rfl
                    (decodePhase_no_strategy env2 (passState s2) ff 1 Action.clearRegions h4).2
                · exact h4
              · exact absurd h3 hl2
          exact applyStage_strategy_unique env2 (decodePhase env2 (passState s2) ff 1).2.1
            (passState s2).docVersion tr (decodePhase env2 (passState s2) ff 1).2.2.1
            ⟨hdf2, hcr2⟩
        split
        · rintro ⟨hdf, hcr⟩
          exact hkey [Action.fireRefresh]
            (by simpa [List.append_assoc] using hdf)
            (by simpa [List.append_assoc] using hcr)
            (by simp) (by simp)
        · rintro ⟨hdf, hcr⟩
          exact hkey []
            (by simpa [List.append_assoc] using hdf)
            (by simpa [List.append_assoc] using hcr)
            (by simp) (by simp)



set_option maxRecDepth 4000 in
/-- Concrete check of C6: with a dirty engine and 200 decoded spans the
regions strategy is chosen, and a standard pass on the example state never
mixes the two strategies. -/
theorem c6_apply_strategy_witness :
    Action.clearRegions ∈ (applyStage exEnvBase exStateC10 3
        (List.replicate 200 exResolvedSpan) 2).2.2.1 ∧
    ¬(Action.diffFull ∈ (doHighlight exEnvBase exStateC10 false false).2 ∧
      Action.clearRegions ∈ (doHighlight exEnvBase exStateC10 false false).2) :=
  ⟨(c6_apply_strategy exEnvBase exStateC10 3 (List.replicate 200 exResolvedSpan) 2
      exEnvBase exStateC10 false).2.1.mpr (by decide),
   (c6_apply_strategy exEnvBase exStateC10 3 (List.replicate 200 exResolvedSpan) 2
      exEnvBase exStateC10 false).2.2.2.2 rfl rfl rfl rfl⟩



/-! ## C9: cursor movement cancels only the range handle -/

theorem cancel_true_fields (s : EngineState) :
    (cancel s true).tokenSource = s.tokenSource ∧
    (cancel s true).highlights = s.highlights ∧
    (cancel s true).previousResults = s.previousResults ∧
    (cancel s true).regions = s.regions ∧
    (cancel s true).pendingHighlight = s.pendingHighlight ∧
    (cancel s true).rangeTokenSource = none ∧
    (cancel s true).nextHandle = s.nextHandle ∧
    (cancel s true).docDirty = s.docDirty ∧
    (cancel s true).cancelledHandles
      = (match s.rangeTokenSource with
         | some h => h :: s.cancelledHandles
         | none => s.cancelledHandles) := by
  rcases hr : s.rangeTokenSource with _ | k <;> simp [cancel, hr]

theorem cancel_false_tokenSource (s : EngineState) : (cancel s false).tokenSource = none := by
  rcases hr : s.rangeTokenSource with _ | k <;> rcases ht : s.tokenSource with _ | m <;>
    simp [cancel, hr, ht]

theorem cancel_false_cancelled_mem (s : EngineState) (k : ℕ) (hk : s.tokenSource = some k) :
    k ∈ (cancel s false).cancelledHandles := by
  rcases hr : s.rangeTokenSource with _ | m <;> simp [cancel, hr, hk]

theorem onCursorMoved_keeps_full (env : PassEnv) (s : EngineState) :
    (onCursorMoved env s).1.tokenSource = s.tokenSource ∧
    (onCursorMoved env s).1.cancelledHandles = (cancel s true).cancelledHandles := by
  rw [onCursorMoved]
  split
  · exact ⟨(cancel_true_fields s).1, rfl⟩
  · dsimp only
    split
    · exact ⟨(cancel_true_fields s).1, rfl⟩
    · split
      · exact ⟨(doRangeHighlight_frame env env.rangeCancelled _ 1).1.1.trans
            (cancel_true_fields s).1,
          (doRangeHighlight_frame env env.rangeCancelled _ 1).1.2.2.1⟩
      · exact ⟨(highlightRegions_frame env env.rangeCancelled _ 1 false).1.1.trans
            (cancel_true_fields s).1,
          (highlightRegions_frame env env.rangeCancelled _ 1 false).1.2.2.1⟩

theorem decodePhase_tokenSource (env : PassEnv) (s : EngineState) (ff : Bool) (t : ℕ) :
    (decodePhase env s ff t).2.1.tokenSource = s.tokenSource :=
  (decodePhase_frame env s ff t).1.1

theorem decodePhase_cancelledHandles (env : PassEnv) (s : EngineState) (ff : Bool) (t : ℕ) :
    (decodePhase env s ff t).2.1.cancelledHandles = s.cancelledHandles :=
  (decodePhase_frame env s ff t).1.2.2.1

theorem applyStage_tokenSource (env : PassEnv) (s : EngineState) (version : ℕ)
    (tokenRanges : List SemanticTokenRange) (t : ℕ) :
    (applyStage env s version tokenRanges t).1.tokenSource = s.tokenSource :=
  (applyStage_frame env s version tokenRanges t).1.1

theorem applyStage_cancelledHandles (env : PassEnv) (s : EngineState) (version : ℕ)
    (tokenRanges : List SemanticTokenRange) (t : ℕ) :
    (applyStage env s version tokenRanges t).1.cancelledHandles = s.cancelledHandles :=
  (applyStage_frame env s version tokenRanges t).1.2.2.1

theorem doRangeHighlight_tokenSource (env : PassEnv) (c : ℕ → Bool) (s : EngineState)
    (t : ℕ) : (doRangeHighlight env c s t).1.tokenSource = s.tokenSource :=
  (doRangeHighlight_frame env c s t).1.1

theorem doRangeHighlight_cancelledHandles (env : PassEnv) (c : ℕ → Bool) (s : EngineState)
    (t : ℕ) : (doRangeHighlight env c s t).1.cancelledHandles = s.cancelledHandles :=
  (doRangeHighlight_frame env c s t).1.2.2.1

theorem doHighlight_handles (env : PassEnv) (s : EngineState) (ff os : Bool) :
    (doHighlight env s ff os).1.cancelledHandles = (cancel s false).cancelledHandles ∧
    ((doHighlight env s ff os).1.tokenSource = none ∨
     (doHighlight env s ff os).1.tokenSource = some (cancel s false).nextHandle) := by
  rw [doHighlight]
  split
  · exact ⟨rfl, Or.inl (cancel_false_tokenSource s)⟩
  · dsimp only
    repeat' first
    | split
    | (dsimp only)
    all_goals
      simp [decodePhase_tokenSource, decodePhase_cancelledHandles,
        applyStage_tokenSource, applyStage_cancelledHandles,
        doRangeHighlight_tokenSource, doRangeHighlight_cancelledHandles]

/-- **C9**: the cursor-movement cancellation step (`cancel` with
`rangeOnly` true) cancels and disposes only the range handle: the full
token source, the decoded-result cache, the previous provider result and
the painted-region set are untouched, and an in-flight full request's
handle survives the whole `onCursorMoved` event uncancelled; conversely a
full highlight pass records any in-flight full handle as cancelled before
allocating its own fresh source. -/
theorem c9_cursor_cancel (env : PassEnv) (s : EngineState) (ff os : Bool) :
    ((cancel s true).tokenSource = s.tokenSource) ∧
    ((cancel s true).highlights = s.highlights) ∧
    ((cancel s true).previousResults = s.previousResults) ∧
    ((cancel s true).regions = s.regions) ∧
    ((cancel s true).rangeTokenSource = none) ∧
    (∀ k, s.rangeTokenSource = some k → k ∈ (cancel s true).cancelledHandles) ∧
    ((onCursorMoved env s).1.tokenSource = s.tokenSource) ∧
    (∀ k, s.tokenSource = some k → k ∉ s.cancelledHandles →
      (∀ m, s.rangeTokenSource = some m → k ≠ m) →
      k ∉ (onCursorMoved env s).1.cancelledHandles) ∧
    (∀ k, s.tokenSource = some k → k ∈ (doHighlight env s ff os).1.cancelledHandles) ∧
    (∀ k, s.tokenSource = some k → k < s.nextHandle →
      (doHighlight env s ff os).1.tokenSource ≠ some k) := by
  obtain ⟨t1, t2, t3, t4, _, t6, _, _, t9⟩ := cancel_true_fields s
  refine ⟨t1, t2, t3, t4, t6, ?_, (onCursorMoved_keeps_full env s).1, ?_, ?_, ?_⟩
  · intro k hk
    rw [t9, hk]
    exact List.mem_cons_self _ _
  · intro k hk hnc hne
    rw [(onCursorMoved_keeps_full env s).2, t9]
    rcases hr : s.rangeTokenSource with _ | m
    · exact hnc
    · intro hmem
      rcases List.mem_cons.mp hmem with h2 | h2
      · exact hne m hr h2
      · exact hnc h2
  · intro k hk
    rw [(doHighlight_handles env s ff os).1]
    exact cancel_false_cancelled_mem s k hk
  · intro k hk hlt
    rcases (doHighlight_handles env s ff os).2 with h | h
    · rw [h]; simp
    · rw [h]
      have hn : (cancel s false).nextHandle = s.nextHandle :=
        (cancel_fields s false).2.2.2.2.2.1
      intro hc
      rw [hn] at hc
      have h2 : s.nextHandle = k := by injection hc
      omega

/-- Concrete check of C9 on the example state with both handles live:
handle 7 (the full request) survives a cursor move but is cancelled, and
not reused, by a full pass. -/
theorem c9_cursor_cancel_witness :
    7 ∉ (onCursorMoved exEnvBase exStateC10).1.cancelledHandles ∧
    7 ∈ (doHighlight exEnvBase exStateC10 false false).1.cancelledHandles ∧
    (doHighlight exEnvBase exStateC10 false false).1.tokenSource ≠ some 7 :=
  ⟨(c9_cursor_cancel exEnvBase exStateC10 false false).2.2.2.2.2.2.2.1 7 rfl (by decide)
      (by intro m hm; have h5 : (5 : ℕ) = m := by injection hm
          omega),
   (c9_cursor_cancel exEnvBase exStateC10 false false).2.2.2.2.2.2.2.2.1 7 rfl,
   (c9_cursor_cancel exEnvBase exStateC10 false false).2.2.2.2.2.2.2.2.2 7 rfl (by decide)⟩



/-! ## C3: when a delta request is issued -/

theorem passState_previousResults (s : EngineState) :
    (passState s).previousResults = s.previousResults :=
  (cancel_fields s false).1

theorem passState_docVersion (s : EngineState) :
    (passState s).docVersion = s.docVersion :=
  (cancel_fields s false).2.2.1

theorem requestKind_congr (env : PassEnv) (s1 s2 : EngineState) (ff : Bool)
    (h : s1.previousResults = s2.previousResults) :
    requestKind env s1 ff = requestKind env s2 ff := by
  rw [requestKind, requestKind, h]

theorem doHighlight_requests (env : PassEnv) (s : EngineState) (ff : Bool)
    (hen : enabled env = true) (hh : env.hidden = false) (hc1 : env.cancelled 1 = false)
    (hnr : env.hasRangeProvider = false) :
    (doHighlight env s ff false).2.filter isRequest
      = (match s.previousResults with
         | some pr => if s.docVersion = pr.version then [] else requestKind env s ff
         | none => requestKind env s ff) := by
  have hmain : (doHighlight env s ff false).2.filter isRequest
      = (decodePhase env (passState s) ff 1).2.2.2.filter isRequest := by
    rw [doHighlight_run env s ff hen hh hc1 hnr]
    rcases hd : (decodePhase env (passState s) ff 1).1 with _ | tr
    · dsimp only
      simp [isRequest]
    · dsimp only
      by_cases hc : env.cancelled (decodePhase env (passState s) ff 1).2.2.1 = true
      · rw [if_pos hc]
        dsimp only
        simp [isRequest]
      · rw [if_neg hc]
        split <;> simp [isRequest, applyStage_no_requests]
  rw [hmain, decodePhase_requests,
    requestKind_congr env (passState s) s ff (passState_previousResults s),
    passState_previousResults s, passState_docVersion s]

/-- **C3** (amended): in a standard pass, no request at all is issued when
the cached previous result's version equals the document version (the
cached tokens are reused or re-decoded); with differing versions a delta
request against the cached result is issued exactly when an edit provider
exists, the pass is not a forced-full one and the cached result carries a
resultId; in every other case a full request is issued. The version
comparison gates the reuse branch, not the delta branch. -/
theorem c3_delta_gating (env : PassEnv) (s : EngineState) (ff : Bool)
    (hen : enabled env = true) (hh : env.hidden = false) (hc1 : env.cancelled 1 = false)
    (hnr : env.hasRangeProvider = false) :
    (∀ pr, s.previousResults = some pr → s.docVersion = pr.version →
      (doHighlight env s ff false).2.filter isRequest = []) ∧
    (∀ pr rid, s.previousResults = some pr → s.docVersion ≠ pr.version → ff = false →
      env.hasEditProvider = true → pr.resultId = some rid →
      (doHighlight env s ff false).2.filter isRequest = [Action.requestDelta rid]) ∧
    (∀ pr, s.previousResults = some pr → s.docVersion ≠ pr.version →
      (env.hasEditProvider = false ∨ ff = true ∨ pr.resultId = none) →
      (doHighlight env s ff false).2.filter isRequest = [Action.requestFull]) ∧
    (s.previousResults = none →
      (doHighlight env s ff false).2.filter isRequest = [Action.requestFull]) := by
  have hm := doHighlight_requests env s ff hen hh hc1 hnr
  refine ⟨?_, ?_, ?_, ?_⟩
  · intro pr hp hv
    rw [hm, hp]
    dsimp only
    rw [if_pos hv]
  · intro pr rid hp hv hff he hrid
    subst hff
    rw [hm, hp]
    dsimp only
    rw [if_neg hv]
    simp [requestKind, he, hp, hrid]
  · intro pr hp hv hcase
    rw [hm, hp]
    dsimp only
    rw [if_neg hv]
    rcases hcase with he | hff | hrid
    · simp [requestKind, he]
    · subst hff
      cases hbe : env.hasEditProvider <;> simp [requestKind, hbe]
    · cases hbe : env.hasEditProvider <;> cases ff <;> simp [requestKind, hbe, hp, hrid]
  · intro hp
    rw [hm, hp]
    dsimp only
    cases hbe : env.hasEditProvider <;> cases ff <;> simp [requestKind, hbe, hp]

/-- A state whose cached previous result is one version behind the
document, with a resultId: the delta branch fires despite the mismatch. -/
def exStateC3 : EngineState :=
  { docVersion := 2, docDirty := false, lineCount := 10, hlVersion := none,
    dirty := false, highlights := none,
    previousResults := some ⟨1, some "r", [0, 0, 1, 0, 0]⟩, regions := [],
    tokenSource := none, rangeTokenSource := none, nextHandle := 0,
    cancelledHandles := [], pendingHighlight := none }

/-- The cached previous result of `exStateC3`. -/
def exPrevC3 : PreviousResult := ⟨1, some "r", [0, 0, 1, 0, 0]⟩

/-- The base environment with an edit-delta provider. -/
def exEnvC3 : PassEnv := { exEnvBase with hasEditProvider := true }

/-- **C3** is refuted as stated: a standard pass on `exStateC3` issues a
delta request against the cached result although the cached version 1
differs from the document version 2 - `requestAllHighlights` checks only
`previousResult?.resultId`, never the cached version. -/
theorem c3_counterexample :
    ¬(∀ (env : PassEnv) (s : EngineState) (pr : PreviousResult) (rid : String),
        enabled env = true → env.hidden = false → env.cancelled 1 = false →
        env.hasRangeProvider = false → s.previousResults = some pr →
        (doHighlight env s false false).2.filter isRequest = [Action.requestDelta rid] →
        s.docVersion = pr.version) := by
  intro h
  have h2 := h exEnvC3 exStateC3 exPrevC3 "r" rfl rfl rfl rfl rfl rfl
  exact absurd h2 (by decide)

/-- Concrete check of C3 (amended): on `exStateC3` the delta branch fires
with an edit provider and falls back to a full request without one. -/
theorem c3_delta_gating_witness :
    (doHighlight exEnvC3 exStateC3 false false).2.filter isRequest
      = [Action.requestDelta "r"] ∧
    (doHighlight exEnvBase exStateC3 false false).2.filter isRequest
      = [Action.requestFull] :=
  ⟨(c3_delta_gating exEnvC3 exStateC3 false rfl rfl rfl rfl).2.1 exPrevC3 "r" rfl
      (by decide) rfl rfl rfl,
   (c3_delta_gating exEnvBase exStateC3 false rfl rfl rfl rfl).2.2.1 exPrevC3 rfl
      (by decide) (Or.inl rfl)⟩



/-! ## C4: cancellation yields no result and no publication -/

theorem passState_regions (s : EngineState) : (passState s).regions = [] := by
  rcases hr : s.rangeTokenSource with _ | k <;> rcases ht : s.tokenSource with _ | m <;>
    simp [passState, cancel, hr, ht]

theorem decodePhase_no_publish (env : PassEnv) (s : EngineState) (ff : Bool) (t : ℕ) :
    (decodePhase env s ff t).2.2.2.filter isPublish = [] := by
  rw [List.filter_eq_nil_iff]
  intro a ha
  rcases decodePhase_acts env s ff t a ha with h | h
  · cases a <;> simp_all [isRequest, isPublish]
  · subst h
    simp [isPublish]

theorem decodePhase_regions (env : PassEnv) (s : EngineState) (ff : Bool) (t : ℕ) :
    (decodePhase env s ff t).2.1.regions = s.regions :=
  (decodePhase_frame env s ff t).2.1

/-- A freshly attached buffer: nothing decoded, nothing painted, no
request in flight. -/
def initState (v lc : ℕ) : EngineState :=
  { docVersion := v, docDirty := false, lineCount := lc, hlVersion := none,
    dirty := false, highlights := none, previousResults := none, regions := [],
    tokenSource := none, rangeTokenSource := none, nextHandle := 0,
    cancelledHandles := [], pendingHighlight := none }

/-- **C4**: with a monotone cancellation token, a cancellation requested
before or during decoding makes `getTokenRanges` return no result; in
general `getTokenRanges` returns either no result or the full decode,
never a partial span list; and a standard pass whose token is found
cancelled after the decode step publishes nothing to the renderer and
ends with an empty painted-region set. -/
theorem c4_cancellation (ctx : DecodeCtx) (y c : ℕ → Bool) (tokens : List ℕ) (t τ : ℕ)
    (env : PassEnv) (s : EngineState) (ff : Bool)
    (hmono : ∀ a b, a ≤ b → c a = true → c b = true) :
    (c τ = true → τ ≤ (getTokenRanges ctx y c tokens t).2 →
      (getTokenRanges ctx y c tokens t).1 = none) ∧
    ((getTokenRanges ctx y c tokens t).1 = none ∨
     (getTokenRanges ctx y c tokens t).1 = some (decodeSpans ctx tokens 0 0)) ∧
    (enabled env = true → env.hidden = false → env.cancelled 1 = false →
      env.hasRangeProvider = false →
      env.cancelled (decodePhase env (passState s) ff 1).2.2.1 = true →
      (doHighlight env s ff false).2.filter isPublish = [] ∧
      (doHighlight env s ff false).1.regions = []) := by
  refine ⟨?_, getTokenRanges_none_or_full ctx y c tokens t, ?_⟩
  · intro hcτ hle
    have h2 : (getTokenRanges ctx y c tokens t).2
        = (getTokenRangesGo ctx y c tokens 0 t 0 0).2 := by
      rw [getTokenRanges]
      dsimp only
      split <;> rfl
    have hctf : c (getTokenRangesGo ctx y c tokens 0 t 0 0).2 = true :=
      hmono τ _ (h2 ▸ hle) hcτ
    rw [getTokenRanges]
    dsimp only
    rw [if_pos hctf]
  · intro hen hh hc1 hnr hcT
    rw [doHighlight_run env s ff hen hh hc1 hnr]
    rcases hd : (decodePhase env (passState s) ff 1).1 with _ | tr
    · dsimp only
      refine ⟨?_, ?_⟩
      · simp [isPublish, decodePhase_no_publish]
      · rw [decodePhase_regions, passState_regions]
    · dsimp only
      rw [if_pos hcT]
      refine ⟨?_, ?_⟩
      · simp [isPublish, decodePhase_no_publish]
      · rw [decodePhase_regions, passState_regions]

/-- The base environment whose token is cancelled from the second
suspension point on: the full request succeeds but the pass then observes
the cancellation. -/
def exEnvC4 : PassEnv := { exEnvBase with cancelled := fun τ => decide (2 ≤ τ) }

/-- Concrete check of C4: a token cancelled from time 1 on makes the
decode of the example tokens return no result, and a pass cancelled after
its decode step publishes nothing and paints no region. -/
theorem c4_cancellation_witness :
    (getTokenRanges exCtx (fun _ => true) (fun τ => decide (1 ≤ τ)) exTokens 0).1 = none ∧
    ((doHighlight exEnvC4 (initState 1 10) false false).2.filter isPublish = [] ∧
     (doHighlight exEnvC4 (initState 1 10) false false).1.regions = []) :=
  ⟨(c4_cancellation exCtx (fun _ => true) (fun τ => decide (1 ≤ τ)) exTokens 0 1
      exEnvC4 (initState 1 10) false
      (by intro a b hab hc; simp only [decide_eq_true_eq] at hc ⊢; omega)).1
      (by decide) (by decide),
   (c4_cancellation exCtx (fun _ => true) (fun τ => decide (1 ≤ τ)) exTokens 0 1
      exEnvC4 (initState 1 10) false
      (by intro a b hab hc; simp only [decide_eq_true_eq] at hc ⊢; omega)).2.2
      rfl rfl rfl rfl (by decide)⟩



/-! ## C5: running a pass twice with no document change -/

/-- `passState (initState v lc)` spelled out. -/
def passInitState (v lc : ℕ) : EngineState :=
  { docVersion := v, docDirty := false, lineCount := lc, hlVersion := none,
    dirty := false, highlights := none, previousResults := none, regions := [],
    tokenSource := some 0, rangeTokenSource := none, nextHandle := 1,
    cancelledHandles := [], pendingHighlight := none }

theorem passInitState_eq (v lc : ℕ) : passState (initState v lc) = passInitState v lc := rfl

/-- The engine after the first pass's successful full request and decode. -/
def requestedState (env : PassEnv) (v lc : ℕ) (m : SemanticTokensModel) : EngineState :=
  { docVersion := v, docDirty := false, lineCount := lc, hlVersion := none,
    dirty := false,
    highlights := some (v, decodeSpans (decodeCtx env) m.data 0 0),
    previousResults := some { version := v, resultId := m.resultId, tokens := m.data },
    regions := [], tokenSource := some 0, rangeTokenSource := none, nextHandle := 1,
    cancelledHandles := [], pendingHighlight := none }

/-- The engine at the end of the first pass (whole-document apply done). -/
def firstPassState (env : PassEnv) (v lc : ℕ) (m : SemanticTokensModel) : EngineState :=
  { docVersion := v, docDirty := false, lineCount := lc, hlVersion := some v,
    dirty := true,
    highlights := some (v, decodeSpans (decodeCtx env) m.data 0 0),
    previousResults := some { version := v, resultId := m.resultId, tokens := m.data },
    regions := [], tokenSource := some 0, rangeTokenSource := none, nextHandle := 1,
    cancelledHandles := [], pendingHighlight := none }

/-- The state the second pass works on after its initial cancel. -/
def secondPassInit (env : PassEnv) (v lc : ℕ) (m : SemanticTokensModel) : EngineState :=
  { docVersion := v, docDirty := false, lineCount := lc, hlVersion := some v,
    dirty := true,
    highlights := some (v, decodeSpans (decodeCtx env) m.data 0 0),
    previousResults := some { version := v, resultId := m.resultId, tokens := m.data },
    regions := [], tokenSource := some 1, rangeTokenSource := none, nextHandle := 2,
    cancelledHandles := [0], pendingHighlight := none }

theorem secondPassInit_eq (env : PassEnv) (v lc : ℕ) (m : SemanticTokensModel) :
    passState (firstPassState env v lc m) = secondPassInit env v lc m := rfl

theorem getTokenRanges_uncancelled (ctx : DecodeCtx) (y : ℕ → Bool) (tokens : List ℕ)
    (t : ℕ) :
    getTokenRanges ctx y (fun _ => false) tokens t
      = (some (decodeSpans ctx tokens 0 0),
         (getTokenRangesGo ctx y (fun _ => false) tokens 0 t 0 0).2) := by
  have hfull := getTokenRangesGo_full ctx y (fun _ => false) tokens 0 t 0 0 rfl
  rw [getTokenRanges]
  simp [hfull]

theorem applyStage_whole_state (env : PassEnv) (s : EngineState) (version : ℕ)
    (tokenRanges : List SemanticTokenRange) (t : ℕ)
    (h : (!s.dirty || decide (tokenRanges.length < 200)) = true) :
    (applyStage env s version tokenRanges t).1.regions = s.regions := by
  rw [applyStage, if_pos h]
  dsimp only
  split <;> rfl



theorem passInitState_previousResults (v lc : ℕ) :
    (passInitState v lc).previousResults = none := rfl

theorem secondPassInit_previousResults (env : PassEnv) (v lc : ℕ)
    (m : SemanticTokensModel) :
    (secondPassInit env v lc m).previousResults
      = some { version := v, resultId := m.resultId, tokens := m.data } := rfl

theorem secondPassInit_docVersion (env : PassEnv) (v lc : ℕ) (m : SemanticTokensModel) :
    (secondPassInit env v lc m).docVersion = v := rfl

theorem secondPassInit_highlights (env : PassEnv) (v lc : ℕ) (m : SemanticTokensModel) :
    (secondPassInit env v lc m).highlights
      = some (v, decodeSpans (decodeCtx env) m.data 0 0) := rfl

theorem requestAllHighlights_fresh (env : PassEnv) (v lc : ℕ) (m : SemanticTokensModel)
    (hC : env.cancelled = fun _ => false) (hE : env.hasEditProvider = false)
    (hF : env.fullResponse = .ok (some m)) :
    requestAllHighlights env (passInitState v lc) false 1
      = (.ok (some (decodeSpans (decodeCtx env) m.data 0 0)),
         some { version := v, resultId := m.resultId, tokens := m.data },
         (getTokenRangesGo (decodeCtx env) env.yieldAt (fun _ => false) m.data 0 2 0 0).2,
         [Action.requestFull]) := by
  rw [requestAllHighlights, hE]
  dsimp only
  rw [requestFullPath, hF, hC]
  dsimp only
  rw [if_neg (by simp)]
  rw [getTokenRanges_uncancelled]
  dsimp only [passInitState]

theorem decodePhase_fresh (env : PassEnv) (v lc : ℕ) (m : SemanticTokensModel)
    (hC : env.cancelled = fun _ => false) (hE : env.hasEditProvider = false)
    (hF : env.fullResponse = .ok (some m)) :
    decodePhase env (passInitState v lc) false 1
      = (some (decodeSpans (decodeCtx env) m.data 0 0), requestedState env v lc m,
         (getTokenRangesGo (decodeCtx env) env.yieldAt (fun _ => false) m.data 0 2 0 0).2,
         [Action.requestFull]) := by
  rw [decodePhase, passInitState_previousResults]
  dsimp only
  rw [requestPhase]
  dsimp only
  rw [requestAllHighlights_fresh env v lc m hC hE hF]
  dsimp only [sendRequest]
  rfl

theorem decodePhase_cached (env : PassEnv) (v lc : ℕ) (m : SemanticTokensModel) :
    decodePhase env (secondPassInit env v lc m) false 1
      = (some (decodeSpans (decodeCtx env) m.data 0 0),
         secondPassInit env v lc m, 1, []) := by
  rw [decodePhase, secondPassInit_previousResults]
  dsimp only
  rw [secondPassInit_docVersion, if_pos rfl, secondPassInit_highlights]
  dsimp only
  rw [if_pos rfl]

theorem applyStage_fresh (env : PassEnv) (v lc : ℕ) (m : SemanticTokensModel) (t : ℕ)
    (hC : env.cancelled = fun _ => false) (hD : env.diffResult = fun _ => true) :
    applyStage env (requestedState env v lc m) v
        (decodeSpans (decodeCtx env) m.data 0 0) t
      = (firstPassState env v lc m, t + 2, [Action.diffFull, Action.applyFull], true) := by
  rw [applyStage]
  rw [if_pos (by simp [requestedState])]
  dsimp only
  rw [hD, hC]
  dsimp only
  rw [if_neg (by simp)]
  rfl

theorem doHighlight_fresh (env : PassEnv) (v lc : ℕ) (m : SemanticTokensModel)
    (hen : enabled env = true) (hh : env.hidden = false)
    (hnr : env.hasRangeProvider = false)
    (hC : env.cancelled = fun _ => false) (hD : env.diffResult = fun _ => true)
    (hE : env.hasEditProvider = false) (hF : env.fullResponse = .ok (some m)) :
    doHighlight env (initState v lc) false false
      = (firstPassState env v lc m,
         [Action.evalHidden, Action.requestFull, Action.diffFull, Action.applyFull,
          Action.fireRefresh]) := by
  have hc1 : env.cancelled 1 = false := by rw [hC]
  rw [doHighlight_run env (initState v lc) false hen hh hc1 hnr, passInitState_eq,
    decodePhase_fresh env v lc m hC hE hF]
  dsimp only [passInitState]
  rw [hC]
  dsimp only
  rw [if_neg (by simp)]
  rw [applyStage_fresh env v lc m _ hC hD]
  dsimp only
  rw [if_pos rfl]
  rfl



/-- **C5** (amended): with an unchanging, successful, uncancelled
environment, running the highlight pass twice from a fresh buffer issues
no provider request in the second pass (the cached decoded result for the
matching version is reused directly), and when the decoded span count is
below the 200 threshold the painted-region set is also unchanged between
the end of the first pass and the end of the second. With 200 or more
spans the second pass switches to the region strategy and repaints the
expanded viewport, so the unconditional region-set idempotence of the
original claim fails. -/
theorem c5_idempotent_pass (env : PassEnv) (v lc : ℕ) (m : SemanticTokensModel)
    (hen : enabled env = true) (hh : env.hidden = false)
    (hnr : env.hasRangeProvider = false)
    (hC : env.cancelled = fun _ => false) (hD : env.diffResult = fun _ => true)
    (hE : env.hasEditProvider = false) (hF : env.fullResponse = .ok (some m)) :
    ((doHighlight env (doHighlight env (initState v lc) false false).1 false
        false).2.filter isRequest = []) ∧
    ((decodeSpans (decodeCtx env) m.data 0 0).length < 200 →
      (doHighlight env (doHighlight env (initState v lc) false false).1 false
          false).1.regions
        = (doHighlight env (initState v lc) false false).1.regions) := by
  have hc1 : env.cancelled 1 = false := by rw [hC]
  have hp1 := doHighlight_fresh env v lc m hen hh hnr hC hD hE hF
  have hrun2 := doHighlight_run env (firstPassState env v lc m) false hen hh hc1 hnr
  constructor
  · rw [hp1]
    dsimp only
    rw [hrun2, secondPassInit_eq, decodePhase_cached]
    dsimp only
    rw [hC]
    dsimp only
    rw [if_neg (by simp)]
    split <;> simp [isRequest, applyStage_no_requests]
  · intro hlen
    rw [hp1]
    dsimp only
    rw [hrun2, secondPassInit_eq, decodePhase_cached]
    dsimp only
    rw [hC]
    dsimp only
    rw [if_neg (by simp)]
    have hcond : (!(secondPassInit env v lc m).dirty
        || decide ((decodeSpans (decodeCtx env) m.data 0 0).length < 200)) = true := by
      simp [secondPassInit, hlen]
    split <;>
      (dsimp only;
       rw [applyStage_whole_state env (secondPassInit env v lc m) _ _ 1 hcond];
       rfl)

/-- A full-provider reply with 200 token groups: enough spans to push the
second pass onto the region strategy. -/
def exTokensC5 : List ℕ := (List.replicate 200 [1, 0, 0, 0, 0]).flatten

/-- The base environment answering with the 200-group reply. -/
def exEnvC5 : PassEnv :=
  { exEnvBase with fullResponse := .ok (some ⟨some "r", exTokensC5⟩) }

set_option maxRecDepth 8000 in
/-- **C5** is refuted as stated: with a 200-group reply the first pass
applies whole-document highlights and leaves no painted region, while the
second pass - although it reuses the cache and issues no request - runs
the region strategy and paints the expanded viewport, changing the
painted-region set. -/
theorem c5_counterexample :
    ¬(∀ (env : PassEnv) (v lc : ℕ),
        enabled env = true → env.hidden = false → env.hasRangeProvider = false →
        env.cancelled = (fun _ => false) → env.diffResult = (fun _ => true) →
        env.hasEditProvider = false →
        (doHighlight env (doHighlight env (initState v lc) false false).1 false
            false).1.regions
          = (doHighlight env (initState v lc) false false).1.regions) := by
  intro h
  have h2 := h exEnvC5 1 300 rfl rfl rfl rfl rfl rfl
  exact absurd h2 (by decide)

/-- The small reply of the base environment, as a model value. -/
def exModelC5 : SemanticTokensModel := ⟨some "r", [0, 0, 1, 0, 0]⟩

/-- Concrete check of C5 (amended): two passes over the base environment
issue no second request and leave the painted-region set unchanged. -/
theorem c5_idempotent_pass_witness :
    (doHighlight exEnvBase (doHighlight exEnvBase (initState 1 2) false false).1 false
        false).2.filter isRequest = [] ∧
    (doHighlight exEnvBase (doHighlight exEnvBase (initState 1 2) false false).1 false
        false).1.regions
      = (doHighlight exEnvBase (initState 1 2) false false).1.regions :=
  ⟨(c5_idempotent_pass exEnvBase 1 2 exModelC5 rfl rfl rfl rfl rfl rfl rfl).1,
   (c5_idempotent_pass exEnvBase 1 2 exModelC5 rfl rfl rfl rfl rfl rfl rfl).2 (by decide)⟩


end CocSem
